import Mathlib

set_option maxRecDepth 16384

/-!
Verification of the pushpress-cli targeting/classification engine.

Shallow embedding conventions:
* JS numbers are modelled as `ℚ` (the claims under study do not hinge on
  floating-point rounding), `Math.round` as `jsRound` (half-up).
* Strings are Lean `String`s; `toLowerCase` is modelled on the ASCII range
  (`asciiToLower`), `trim` as `jsTrim`, `String.includes` as `containsSub`.
* Browser/DOM queries (locator results, aria-label node lists, bounding
  boxes, visible-text probes) are oracles: the embedding takes their results
  as explicit parameters, and the control flow around them is translated
  from the source.
* Async functions are pure: awaiting a query consumes the corresponding
  oracle value; sleeps are dropped; poll loops take the list of poll results
  (one entry per loop iteration allowed by the timeout budget).
-/

/-- JS `Math.round`: round half toward positive infinity. -/
def jsRound (q : ℚ) : ℤ := ⌊q + 1/2⌋

/-- ASCII-range model of `String.prototype.toLowerCase`. -/
def asciiToLower (c : Char) : Char :=
  if 'A' ≤ c ∧ c ≤ 'Z' then Char.ofNat (c.toNat + 32) else c

/-- Lower-case the characters of a string (JS `toLowerCase`). -/
def lowerChars (s : String) : List Char := s.data.map asciiToLower

/-- Check whether the second list starts with the first. -/
def leadsWith : List Char → List Char → Bool
  | [], _ => true
  | _ :: _, [] => false
  | a :: s, b :: t => a == b && leadsWith s t

/-- JS `String.prototype.includes`: `containsSub sub hay` is true when `sub`
occurs contiguously inside `hay`. -/
def containsSub (sub : List Char) : List Char → Bool
  | [] => leadsWith sub []
  | c :: rest => leadsWith sub (c :: rest) || containsSub sub rest

/-- JS `String.prototype.trim`. -/
def jsTrim (cs : List Char) : List Char :=
  ((cs.dropWhile Char.isWhitespace).reverse.dropWhile Char.isWhitespace).reverse

/-! ## `parseWeekOffset` (src/src/flows/schedule-book.flow.ts) -/

/-- Model of `value.trim().toLowerCase()` as used by `parseWeekOffset`. -/
def normalizeParam (s : String) : List Char := (jsTrim s.data).map asciiToLower

/-- Numeric value of a run of decimal digits. -/
def digitsToNat (cs : List Char) : ℕ := cs.foldl (fun a c => a * 10 + (c.toNat - 48)) 0

/-- First match of the regex `(\d+)`: the first maximal digit run, as a number. -/
def firstDigitRun (cs : List Char) : Option ℕ :=
  match cs.dropWhile (fun c => !c.isDigit) with
  | [] => none
  | rest => some (digitsToNat (rest.takeWhile Char.isDigit))

/-- The least magnitude at which ECMAScript `ToNumber` of a decimal digit
string rounds to `+Infinity`: under roundTiesToEven, mathematical values at
or above the midpoint `2^1024 - 2^970` between the largest finite double
(`2^1024 - 2^971`) and `2^1024` round up and overflow, values below it
round to a finite double. -/
def jsOverflowBound : ℕ := 2 ^ 1024 - 2 ^ 970

/-- Translation of `parseWeekOffset`.  `Number(match[1])` of a digit run is
nonnegative (so `offset >= 0` always passes) and is finite exactly when the
run's value is below `jsOverflowBound`; that models the
`Number.isFinite(offset)` guard.  Below the threshold the digit run is
modelled by its exact value: `Math.min(offset, 6)` is unaffected by double
rounding, since values up to 6 are exact and a rounded value above 6 stays
above 6. -/
def parseWeekOffset (value : Option String) : ℤ :=
  match value with
  | none => 0
  | some v =>
    if v = "" then 0
    else if normalizeParam v = [] ∨ normalizeParam v = ("current").data ∨
        normalizeParam v = ("0").data then 0
    else if normalizeParam v = ("next").data then 1
    else
      match firstDigitRun (normalizeParam v) with
      | some n => if n < jsOverflowBound then min (n : ℤ) 6 else 0
      | none => 0

/-- A string of 309 nines: its digit run parses to `Infinity` in JS. -/
def c10nines : String := ⟨List.replicate 309 ('9')⟩

/-- Counterexample to C10: a string whose first digit run has 309 digits
parses to `Infinity`, fails the `Number.isFinite` guard and yields 0 — not
`min(first match, 6) = 6` as the claim's universal clause states. -/
theorem parseWeekOffset_overflow_cex :
    firstDigitRun (normalizeParam c10nines) = some (10 ^ 309 - 1) ∧
    jsOverflowBound ≤ 10 ^ 309 - 1 ∧
    min (((10 : ℕ) ^ 309 - 1 : ℕ) : ℤ) 6 = 6 ∧
    parseWeekOffset (some c10nines) = 0 := by
  refine ⟨by decide, by decide, by decide, by decide⟩

/-- C10 amended: for every input (and for `undefined`) `parseWeekOffset`
returns an integer in `[0, 6]`; `undefined`, an empty or whitespace-only
string, `"current"` and `"0"` map to 0; `"next"` maps to 1; a string whose
first digit run is below the double-overflow threshold maps to the minimum
of that run and 6; a digit run at or beyond the threshold parses to
`Infinity`, fails the finiteness guard and maps to 0; every other string
maps to 0. -/
theorem parseWeekOffset_spec :
    (∀ v : Option String, 0 ≤ parseWeekOffset v ∧ parseWeekOffset v ≤ 6) ∧
    parseWeekOffset none = 0 ∧
    (∀ s : String,
      normalizeParam s = [] ∨ normalizeParam s = ("current").data ∨
        normalizeParam s = ("0").data →
      parseWeekOffset (some s) = 0) ∧
    (∀ s : String, normalizeParam s = ("next").data → parseWeekOffset (some s) = 1) ∧
    (∀ (s : String) (n : ℕ),
      firstDigitRun (normalizeParam s) = some n → n < jsOverflowBound →
      parseWeekOffset (some s) = min (n : ℤ) 6) ∧
    (∀ (s : String) (n : ℕ),
      firstDigitRun (normalizeParam s) = some n → jsOverflowBound ≤ n →
      parseWeekOffset (some s) = 0) ∧
    (∀ s : String,
      firstDigitRun (normalizeParam s) = none → normalizeParam s ≠ ("next").data →
      parseWeekOffset (some s) = 0) := by
  have hempty : normalizeParam "" = [] := rfl
  have hposb : 0 < jsOverflowBound := by
    have h1 : (2 : ℕ) ^ 970 < 2 ^ 1024 := Nat.pow_lt_pow_right (by norm_num) (by norm_num)
    unfold jsOverflowBound
    omega
  refine ⟨?_, rfl, ?_, ?_, ?_, ?_, ?_⟩
  · intro v
    cases v with
    | none => simp [parseWeekOffset]
    | some s =>
      by_cases h0 : s = ""
      · simp [parseWeekOffset, h0]
      · simp only [parseWeekOffset, h0, if_false]
        split
        · omega
        · split
          · omega
          · split
            · split
              · omega
              · omega
            · omega
  · intro s h
    by_cases h0 : s = ""
    · simp [parseWeekOffset, h0]
    · simp only [parseWeekOffset, h0, if_false]
      rw [if_pos h]
  · intro s h
    by_cases h0 : s = ""
    · rw [h0, hempty] at h
      exact absurd h (by decide)
    · simp only [parseWeekOffset, h0, if_false]
      rw [if_neg, if_pos h]
      rw [h]
      decide
  · intro s n h hfin
    by_cases h0 : s = ""
    · rw [h0, hempty, show firstDigitRun [] = none from by decide] at h
      exact Option.noConfusion h
    · simp only [parseWeekOffset, h0, if_false]
      by_cases h1 : normalizeParam s = [] ∨ normalizeParam s = ("current").data ∨
          normalizeParam s = ("0").data
      · rcases h1 with h1 | h1 | h1
        · rw [h1, show firstDigitRun [] = none from by decide] at h
          exact Option.noConfusion h
        · rw [h1, show firstDigitRun (("current").data) = none from by decide] at h
          exact Option.noConfusion h
        · rw [h1] at h
          have hn : n = 0 := by
            have : firstDigitRun (("0").data) = some 0 := by decide
            rw [this] at h
            exact (Option.some.injEq _ _).mp h.symm
          rw [if_pos (Or.inr (Or.inr h1)), hn]
          decide
      · rw [if_neg h1]
        by_cases h2 : normalizeParam s = ("next").data
        · rw [h2, show firstDigitRun (("next").data) = none from by decide] at h
          exact Option.noConfusion h
        · rw [if_neg h2, h]
          show (if n < jsOverflowBound then min (n : ℤ) 6 else 0) = min (n : ℤ) 6
          rw [if_pos hfin]
  · intro s n h hbig
    by_cases h0 : s = ""
    · rw [h0, hempty, show firstDigitRun [] = none from by decide] at h
      exact Option.noConfusion h
    · simp only [parseWeekOffset, h0, if_false]
      by_cases h1 : normalizeParam s = [] ∨ normalizeParam s = ("current").data ∨
          normalizeParam s = ("0").data
      · rcases h1 with h1 | h1 | h1
        · rw [h1, show firstDigitRun [] = none from by decide] at h
          exact Option.noConfusion h
        · rw [h1, show firstDigitRun (("current").data) = none from by decide] at h
          exact Option.noConfusion h
        · rw [h1] at h
          have hn : n = 0 := by
            have : firstDigitRun (("0").data) = some 0 := by decide
            rw [this] at h
            exact (Option.some.injEq _ _).mp h.symm
          rw [hn] at hbig
          exact absurd hbig (by omega)
      · rw [if_neg h1]
        by_cases h2 : normalizeParam s = ("next").data
        · rw [h2, show firstDigitRun (("next").data) = none from by decide] at h
          exact Option.noConfusion h
        · rw [if_neg h2, h]
          show (if n < jsOverflowBound then min (n : ℤ) 6 else 0) = 0
          rw [if_neg (not_lt.mpr hbig)]
  · intro s h h2
    by_cases h0 : s = ""
    · simp [parseWeekOffset, h0]
    · simp only [parseWeekOffset, h0, if_false]
      by_cases h1 : normalizeParam s = [] ∨ normalizeParam s = ("current").data ∨
          normalizeParam s = ("0").data
      · rw [if_pos h1]
      · rw [if_neg h1, if_neg h2, h]

/-- A one followed by 309 zeros: also an overflowing digit run. -/
def c10pow : String := ⟨('1') :: List.replicate 309 ('0')⟩

/-- Witness for C10's amended theorem: concrete evaluations through
`parseWeekOffset_spec`, including an overflowing digit run. -/
theorem parseWeekOffset_spec_witness :
    parseWeekOffset (some ("week 3 please")) = 3 ∧
    parseWeekOffset (some ("NEXT ")) = 1 ∧
    parseWeekOffset (some ("in 99 weeks")) = 6 ∧
    parseWeekOffset (some ("whenever")) = 0 ∧
    parseWeekOffset (some c10pow) = 0 := by
  refine ⟨?_, ?_, ?_, ?_, ?_⟩
  · have h := parseWeekOffset_spec.2.2.2.2.1 ("week 3 please") 3 (by decide) (by decide)
    rw [h]
    decide
  · exact parseWeekOffset_spec.2.2.2.1 ("NEXT ") (by decide)
  · have h := parseWeekOffset_spec.2.2.2.2.1 ("in 99 weeks") 99 (by decide) (by decide)
    rw [h]
    decide
  · exact parseWeekOffset_spec.2.2.2.2.2.2 ("whenever") (by decide) (by decide)
  · exact parseWeekOffset_spec.2.2.2.2.2.1 c10pow (10 ^ 309) (by decide) (by decide)

/-! ## Outcome classifier: `detectBookingOutcome` (src/src/flows/schedule-book.flow.ts) -/

/-- Booking record statuses (the `BookingRecord['status']` union). -/
inductive BStatus
  | reserved
  | waitlisted
  | attempted
  | skipped
  | unavailable
  | unknown
deriving DecidableEq, Repr

/-- Name of a status, as the TS string literal. -/
def statusName : BStatus → String
  | .reserved => "reserved"
  | .waitlisted => "waitlisted"
  | .attempted => "attempted"
  | .skipped => "skipped"
  | .unavailable => "unavailable"
  | .unknown => "unknown"

/-- Keyword test on a lower-cased aria-label (`normalized.includes(kw)`). -/
def hasKw (label : String) (kw : String) : Bool :=
  containsSub kw.data (lowerChars label)

/-- Classification of a single aria-label by the keyword chain inside the
`page.evaluate` of `detectBookingOutcome`; `none` when no keyword matches
(the loop moves to the next node). -/
def classifyLabel (label : String) : Option BStatus :=
  if hasKw label ("reserved") then some .reserved
  else if hasKw label ("registered") || hasKw label ("booked") || hasKw label ("enrolled") ||
      hasKw label ("attending") || hasKw label ("checked in") || hasKw label ("check in") ||
      hasKw label ("check-in") then some .reserved
  else if hasKw label ("waitlist") then some .waitlisted
  else if hasKw label ("cancel reservation") || hasKw label ("cancel booking") ||
      hasKw label ("cancel class") || hasKw label ("leave waitlist") ||
      hasKw label ("cancel waitlist") || hasKw label ("withdraw") then
    some (if hasKw label ("waitlist") then BStatus.waitlisted else BStatus.reserved)
  else if hasKw label ("unavailable") || hasKw label ("class full") then some .unavailable
  else none

/-- The aria-label scan of `detectBookingOutcome`: first label whose keyword
chain fires decides; otherwise `unknown`. -/
def scanLabels : List String → BStatus
  | [] => .unknown
  | l :: rest =>
    match classifyLabel l with
    | some o => o
    | none => scanLabels rest

/-- Translation of `detectBookingOutcome`.  `labels` is the document-order
list of `[aria-label]` values inside the semantics host; the three booleans
are the results of the `hasVisibleText` fallback probes for
`/check\s*-?\s*in/i`, `/cancel\s+(reservation|booking|class)/i` and
`/waitlist/i`, in the order the source consults them. -/
def detectBookingOutcome (labels : List String)
    (hasCheckInText hasCancelText hasWaitlistText : Bool) : BStatus :=
  let fromSemantics := scanLabels labels
  if fromSemantics ≠ .unknown then fromSemantics
  else if hasCheckInText then .reserved
  else if hasCancelText then .reserved
  else if hasWaitlistText then .waitlisted
  else .unknown

/-- Counterexample to C2: a scope whose visible labels contain both a
"waitlist" keyword and a "cancel reservation" keyword is classified
`waitlisted`, not `reserved` — in the aria-label scan the waitlist check
precedes the cancel-action check, and the first matching label in document
order decides. -/
theorem detectBookingOutcome_cancel_vs_waitlist_cex :
    detectBookingOutcome [("waitlist"), ("cancel reservation")] false false false =
      .waitlisted ∧
    detectBookingOutcome [("Waitlist full - cancel reservation to free a spot")]
      false false false = .waitlisted := by
  constructor
  · decide
  · decide

/-- Helper: a label that classifies never yields `unknown`. -/
theorem classifyLabel_ne_unknown (l : String) (o : BStatus) :
    classifyLabel l = some o → o ≠ BStatus.unknown := by
  intro h hbad
  subst hbad
  unfold classifyLabel at h
  repeat' split at h
  all_goals simp_all

/-- Helper: the scan returns the first label's classification once every
earlier label fails to classify. -/
theorem scanLabels_first (pre : List String) (l : String) (o : BStatus)
    (post : List String) (hpre : ∀ l' ∈ pre, classifyLabel l' = none)
    (hl : classifyLabel l = some o) : scanLabels (pre ++ l :: post) = o := by
  induction pre with
  | nil => simp [scanLabels, hl]
  | cons p ps ih =>
    have hp : classifyLabel p = none := hpre p (by simp)
    simp only [List.cons_append, scanLabels, hp]
    exact ih fun l' hl' => hpre l' (by simp [hl'])

/-- Helper: the scan yields `unknown` when no label classifies. -/
theorem scanLabels_all_none (labels : List String)
    (h : ∀ l' ∈ labels, classifyLabel l' = none) : scanLabels labels = .unknown := by
  induction labels with
  | nil => rfl
  | cons p ps ih =>
    have hp : classifyLabel p = none := h p (by simp)
    simp only [scanLabels, hp]
    exact ih fun l' hl' => h l' (by simp [hl'])

/-- C2 amended: the aria-label scan returns the classification of the first
label (in document order) that matches any keyword, and within a single
label the waitlist check precedes the cancel-action check — so a scope
holding both keywords classifies `reserved` exactly when a pure
cancel-reservation label precedes every waitlist-bearing label.  Only the
visible-text fallback (used when no aria-label classifies) gives the
cancel-reservation probe precedence over the waitlist probe. -/
theorem detectBookingOutcome_priority_amended :
    (∀ (pre post : List String) (l : String) (o : BStatus) (h1 h2 h3 : Bool),
      (∀ l' ∈ pre, classifyLabel l' = none) → classifyLabel l = some o →
      detectBookingOutcome (pre ++ l :: post) h1 h2 h3 = o) ∧
    classifyLabel ("cancel reservation") = some .reserved ∧
    classifyLabel ("waitlist") = some .waitlisted ∧
    (∀ (labels : List String) (h1 h3 : Bool),
      (∀ l' ∈ labels, classifyLabel l' = none) →
      detectBookingOutcome labels h1 true h3 = .reserved) := by
  refine ⟨?_, by decide, by decide, ?_⟩
  · intro pre post l o h1 h2 h3 hpre hl
    have hs := scanLabels_first pre l o post hpre hl
    have hno := classifyLabel_ne_unknown l o hl
    simp [detectBookingOutcome, hs, hno]
  · intro labels h1 h3 hall
    have hs := scanLabels_all_none labels hall
    cases h1 <;> simp [detectBookingOutcome, hs]

/-- Witness for C2's amended theorem: a cancel-reservation label ahead of
every other keyword classifies the scope `reserved`, and the visible-text
fallback classifies `reserved` when both the cancel probe and the waitlist
probe fire. -/
theorem detectBookingOutcome_priority_amended_witness :
    detectBookingOutcome
      [("6:00 AM CrossFit"), ("cancel reservation"), ("waitlist")] false false false =
      .reserved ∧
    detectBookingOutcome [("6:00 AM CrossFit")] false true true = .reserved := by
  constructor
  · exact detectBookingOutcome_priority_amended.1 [("6:00 AM CrossFit")] [("waitlist")]
      ("cancel reservation") .reserved false false false (by decide) (by decide)
  · exact detectBookingOutcome_priority_amended.2.2.2 [("6:00 AM CrossFit")] false true
      (by decide)

/-! ## Targeting cascades: `clickByLabel`, `clickLoginButton` -/

/-- Bounding box of a resolved element (Playwright `boundingBox()`). -/
structure Box where
  x : ℚ
  y : ℚ
  width : ℚ
  height : ℚ
deriving DecidableEq, Repr

/-- Click point used by every cascade: the box center. -/
def boxCenter (b : Box) : ℚ × ℚ := (b.x + b.width / 2, b.y + b.height / 2)

/-- The four locator strategies shared by `clickByLabel` (schedule flow) and
`clickLoginButton` (login flow), in source order. -/
inductive LabelStrategy
  | roleButton
  | roleLink
  | textQuery
  | semanticsText
deriving DecidableEq, Repr

/-- Source order of the `attempts` array. -/
def labelStrategyOrder : List LabelStrategy :=
  [.roleButton, .roleLink, .textQuery, .semanticsText]

/-- Strategy at a given position of the cascade. -/
def stratAt : Fin 4 → LabelStrategy
  | ⟨0, _⟩ => .roleButton
  | ⟨1, _⟩ => .roleLink
  | ⟨2, _⟩ => .textQuery
  | ⟨3, _⟩ => .semanticsText

/-- Run a cascade over strategies: each strategy is invoked in turn
(`env s` is the element-with-box it yields, `none` covering a null handle,
a null bounding box, and a thrown locator error alike); the first success
short-circuits.  Returns the clicked point (if any) and the list of
strategies actually invoked. -/
def cascadeRun (env : LabelStrategy → Option Box) :
    List LabelStrategy → Option (ℚ × ℚ) × List LabelStrategy
  | [] => (none, [])
  | s :: rest =>
    match env s with
    | some b => (some (boxCenter b), [s])
    | none =>
      let r := cascadeRun env rest
      (r.1, s :: r.2)

/-- Translation of `clickByLabel`: four strategies, then a thrown error. -/
def clickByLabel (env : LabelStrategy → Option Box) :
    Except String (ℚ × ℚ) × List LabelStrategy :=
  match cascadeRun env labelStrategyOrder with
  | (some pt, tr) => (.ok pt, tr)
  | (none, tr) => (.error ("Failed to click"), tr)

/-- Viewport dimensions (`page.viewportSize()`). -/
structure Viewport where
  width : ℚ
  height : ℚ
deriving DecidableEq, Repr

/-- The last-resort coordinate used by `clickLoginButton`. -/
def loginFallbackPoint (vp : Viewport) : ℚ × ℚ :=
  ((jsRound (vp.width / 2) : ℤ), (jsRound (vp.height - 80) : ℤ))

/-- Translation of `clickLoginButton`: the same four strategies, then a
fixed-coordinate fallback click. -/
def clickLoginButton (env : LabelStrategy → Option Box) (vp : Viewport) :
    (ℚ × ℚ) × List LabelStrategy :=
  match cascadeRun env labelStrategyOrder with
  | (some pt, tr) => (pt, tr)
  | (none, tr) => (loginFallbackPoint vp, tr)

/-- C5: the cascades try role-button, role-link, free-text and
semantics-host text in that fixed order; when strategy K is the first to
yield an actionable element, exactly strategies 1..K are invoked, that
element's center is clicked, and no later strategy runs; the positional
fallback of `clickLoginButton` fires only when all four fail. -/
theorem cascade_short_circuit :
    List.ofFn stratAt = labelStrategyOrder ∧
    (∀ (env : LabelStrategy → Option Box) (vp : Viewport) (k : Fin 4) (b : Box),
      (∀ j : Fin 4, j < k → env (stratAt j) = none) → env (stratAt k) = some b →
      clickLoginButton env vp = (boxCenter b, labelStrategyOrder.take (k.val + 1)) ∧
      clickByLabel env = (.ok (boxCenter b), labelStrategyOrder.take (k.val + 1))) ∧
    (∀ (env : LabelStrategy → Option Box) (vp : Viewport), (∀ s, env s = none) →
      clickLoginButton env vp = (loginFallbackPoint vp, labelStrategyOrder) ∧
      clickByLabel env = (.error ("Failed to click"), labelStrategyOrder)) := by
  refine ⟨by decide, ?_, ?_⟩
  · intro env vp k b hearlier hk
    fin_cases k
    · simp only [stratAt] at hk
      constructor <;>
        simp [clickLoginButton, clickByLabel, cascadeRun, labelStrategyOrder, hk]
    · have h0 := hearlier ⟨0, by decide⟩ (by decide)
      simp only [stratAt] at hk h0
      constructor <;>
        simp [clickLoginButton, clickByLabel, cascadeRun, labelStrategyOrder, hk, h0]
    · have h0 := hearlier ⟨0, by decide⟩ (by decide)
      have h1 := hearlier ⟨1, by decide⟩ (by decide)
      simp only [stratAt] at hk h0 h1
      constructor <;>
        simp [clickLoginButton, clickByLabel, cascadeRun, labelStrategyOrder, hk, h0, h1]
    · have h0 := hearlier ⟨0, by decide⟩ (by decide)
      have h1 := hearlier ⟨1, by decide⟩ (by decide)
      have h2 := hearlier ⟨2, by decide⟩ (by decide)
      simp only [stratAt] at hk h0 h1 h2
      constructor <;>
        simp [clickLoginButton, clickByLabel, cascadeRun, labelStrategyOrder, hk, h0, h1, h2]
  · intro env vp hall
    constructor <;>
      simp [clickLoginButton, clickByLabel, cascadeRun, labelStrategyOrder,
        hall .roleButton, hall .roleLink, hall .textQuery, hall .semanticsText]

/-- Sample environment for the C5 witness: only the role-link strategy
yields an element. -/
def c5env : LabelStrategy → Option Box := fun s =>
  match s with
  | .roleLink => some ⟨10, 20, 30, 40⟩
  | _ => none

/-- Witness for C5: with the first strategy failing and the second
succeeding, exactly two strategies run and the element center is clicked. -/
theorem cascade_short_circuit_witness :
    clickLoginButton c5env ⟨1280, 720⟩ = ((25, 40), [.roleButton, .roleLink]) ∧
    clickByLabel c5env = (.ok (25, 40), [.roleButton, .roleLink]) := by
  have h := cascade_short_circuit.2.1 c5env ⟨1280, 720⟩ ⟨1, by decide⟩ ⟨10, 20, 30, 40⟩
    (by decide) (by decide)
  refine ⟨?_, ?_⟩
  · rw [h.1]
    norm_num [boxCenter, labelStrategyOrder]
  · rw [h.2]
    norm_num [boxCenter, labelStrategyOrder]

/-! ## `clickBookingAction` and `findTimeSlots` -/

/-- The three locator attempts `clickBookingAction` makes per label. -/
inductive BookingAttempt
  | roleButton
  | textQuery
  | semanticsText
deriving DecidableEq, Repr

/-- Source order of the per-label attempts. -/
def bookingAttemptOrder : List BookingAttempt := [.roleButton, .textQuery, .semanticsText]

/-- The action-label regexes tried by `clickBookingAction`, in order. -/
def bookingActionLabels : List String :=
  [("reserve"), ("book"), ("sign up"), ("join"), ("register")]

/-- Inner loop of `clickBookingAction`: first attempt for a label that
yields an element with a box. -/
def bookingAttemptFind (env : String → BookingAttempt → Option Box) (lab : String) :
    List BookingAttempt → Option (ℚ × ℚ)
  | [] => none
  | a :: rest =>
    match env lab a with
    | some b => some (boxCenter b)
    | none => bookingAttemptFind env lab rest

/-- Outer loop of `clickBookingAction` over the label regexes. -/
def bookingLabelFind (env : String → BookingAttempt → Option Box) :
    List String → Option (ℚ × ℚ)
  | [] => none
  | lab :: rest =>
    match bookingAttemptFind env lab bookingAttemptOrder with
    | some pt => some pt
    | none => bookingLabelFind env rest

/-- Translation of `clickBookingAction`: click the first success, throw
after the whole cascade is exhausted. -/
def clickBookingAction (env : String → BookingAttempt → Option Box) :
    Except String (ℚ × ℚ) :=
  match bookingLabelFind env bookingActionLabels with
  | some pt => .ok pt
  | none => .error ("Booking action button not found.")

/-- An `[aria-label]` node of the semantics tree, with its client rect. -/
structure AriaNode where
  label : String
  x : ℚ
  y : ℚ
  width : ℚ
  height : ℚ
deriving DecidableEq, Repr

/-- Translation of `normalizeTimeLabel`: lower-case, strip whitespace and
dots. -/
def normalizeTimeLabel (s : String) : List Char :=
  (lowerChars s).filter (fun c => !c.isWhitespace && c != '.')

/-- JS `String.prototype.trim` on a `String`. -/
def jsTrimStr (s : String) : String := ⟨jsTrim s.data⟩

/-- A class-name label candidate (`LabelMatch` in the source). -/
structure LabelMatch where
  x : ℚ
  y : ℚ
  width : ℚ
  height : ℚ
  label : String
deriving DecidableEq, Repr

/-- A time-slot candidate (`SlotMatch` in the source). -/
structure SlotMatch where
  x : ℚ
  y : ℚ
  width : ℚ
  height : ℚ
  label : String
  classLabel : Option LabelMatch := none
deriving DecidableEq, Repr

instance slotYLEDec : DecidableRel (fun a b : SlotMatch => a.y ≤ b.y) :=
  fun a b => inferInstanceAs (Decidable (a.y ≤ b.y))

/-- The `results.sort((a, b) => a.y - b.y)` of the query functions. -/
def sortSlotsByY (l : List SlotMatch) : List SlotMatch :=
  List.insertionSort (fun a b => a.y ≤ b.y) l

/-- Semantics-tree path of `findTimeSlots`: every aria-label node whose
normalized label contains the normalized time, large enough and vertically
inside the viewport, sorted by `y`. -/
def findTimeSlotsSem (nodes : List AriaNode) (wanted : List Char) (viewH : ℚ) :
    List SlotMatch :=
  sortSlotsByY (nodes.filterMap (fun n =>
    if !containsSub wanted (normalizeTimeLabel n.label) then none
    else if n.width < 40 ∨ n.height < 18 then none
    else if n.y + n.height < 0 ∨ n.y > viewH then none
    else some ⟨n.x, n.y, n.width, n.height, jsTrimStr n.label, none⟩))

/-- Fallback path of `findTimeSlots`: `fallback` is the oracle list of boxes
of text-locator matches for the time regex; the function applies the same
size and viewport filters and labels results with the raw time label. -/
def findTimeSlotsFallback (fallback : List Box) (timeLabel : String) (viewH : ℚ) :
    List SlotMatch :=
  sortSlotsByY (fallback.filterMap (fun b =>
    if b.width < 40 ∨ b.height < 18 then none
    else if b.y + b.height < 0 ∨ b.y > viewH then none
    else some ⟨b.x, b.y, b.width, b.height, timeLabel, none⟩))

/-- Translation of `findTimeSlots`: the semantics path wins when nonempty,
otherwise the text-locator fallback is consulted. -/
def findTimeSlots (nodes : List AriaNode) (fallback : List Box) (timeLabel : String)
    (viewH : ℚ) : List SlotMatch :=
  let sem := findTimeSlotsSem nodes (normalizeTimeLabel timeLabel) viewH
  if sem.isEmpty then findTimeSlotsFallback fallback timeLabel viewH else sem

/-- Helper: the cascade yields nothing iff every strategy in the list
fails. -/
theorem cascadeRun_fst_none_iff (env : LabelStrategy → Option Box) :
    ∀ l : List LabelStrategy, (cascadeRun env l).1 = none ↔ ∀ s ∈ l, env s = none := by
  intro l
  induction l with
  | nil => simp [cascadeRun]
  | cons s rest ih =>
    rcases hs : env s with _ | b
    · simp [cascadeRun, hs, ih]
    · simp [cascadeRun, hs]

/-- Helper: per-label attempts yield nothing iff each attempt fails. -/
theorem bookingAttemptFind_none_iff (env : String → BookingAttempt → Option Box)
    (lab : String) :
    ∀ l : List BookingAttempt,
      bookingAttemptFind env lab l = none ↔ ∀ a ∈ l, env lab a = none := by
  intro l
  induction l with
  | nil => simp [bookingAttemptFind]
  | cons a rest ih =>
    rcases ha : env lab a with _ | b
    · simp [bookingAttemptFind, ha, ih]
    · simp [bookingAttemptFind, ha]

/-- Helper: the label loop yields nothing iff every label's attempts all
fail. -/
theorem bookingLabelFind_none_iff (env : String → BookingAttempt → Option Box) :
    ∀ l : List String,
      bookingLabelFind env l = none ↔
        ∀ lab ∈ l, ∀ a ∈ bookingAttemptOrder, env lab a = none := by
  intro l
  induction l with
  | nil => simp [bookingLabelFind]
  | cons lab rest ih =>
    rcases hl : bookingAttemptFind env lab bookingAttemptOrder with _ | pt
    · have hl2 := (bookingAttemptFind_none_iff env lab bookingAttemptOrder).mp hl
      simp [bookingLabelFind, hl, ih, hl2]
      exact fun _ => hl2
    · have : ¬∀ a ∈ bookingAttemptOrder, env lab a = none := by
        intro hall
        rw [← bookingAttemptFind_none_iff] at hall
        rw [hall] at hl
        exact Option.noConfusion hl
      simp [bookingLabelFind, hl, this]

/-- C8: `clickBookingAction` (and likewise `clickByLabel`) throws exactly
when every strategy of its cascade fails to yield a clickable element,
while the element-query `findTimeSlots` returns an empty list — never an
error — when no element matches its predicate. -/
theorem mandatory_throw_iff_all_fail :
    (∀ env : String → BookingAttempt → Option Box,
      clickBookingAction env = .error ("Booking action button not found.") ↔
        ∀ lab ∈ bookingActionLabels, ∀ a : BookingAttempt, env lab a = none) ∧
    (∀ env : LabelStrategy → Option Box,
      (clickByLabel env).1 = .error ("Failed to click") ↔ ∀ s, env s = none) ∧
    (∀ (nodes : List AriaNode) (fallback : List Box) (timeLabel : String) (viewH : ℚ),
      (∀ n ∈ nodes,
        containsSub (normalizeTimeLabel timeLabel) (normalizeTimeLabel n.label) = false) →
      fallback = [] →
      findTimeSlots nodes fallback timeLabel viewH = []) := by
  refine ⟨?_, ?_, ?_⟩
  · intro env
    have hattempts : ∀ lab : String,
        (∀ a ∈ bookingAttemptOrder, env lab a = none) ↔ ∀ a, env lab a = none := by
      intro lab
      constructor
      · intro h a
        cases a <;> exact h _ (by simp [bookingAttemptOrder])
      · intro h a _
        exact h a
    rcases hf : bookingLabelFind env bookingActionLabels with _ | pt
    · have hf2 := (bookingLabelFind_none_iff env bookingActionLabels).mp hf
      simp only [clickBookingAction, hf]
      constructor
      · intro _ lab hlab a
        exact (hattempts lab).mp (hf2 lab hlab) a
      · intro _
        trivial
    · have : ¬∀ lab ∈ bookingActionLabels, ∀ a : BookingAttempt, env lab a = none := by
        intro hall
        have : bookingLabelFind env bookingActionLabels = none := by
          rw [bookingLabelFind_none_iff]
          intro lab hlab a _
          exact hall lab hlab a
        rw [this] at hf
        exact Option.noConfusion hf
      simp [clickBookingAction, hf, this]
  · intro env
    have horder : (∀ s ∈ labelStrategyOrder, env s = none) ↔ ∀ s, env s = none := by
      constructor
      · intro h s
        cases s <;> exact h _ (by simp [labelStrategyOrder])
      · intro h s _
        exact h s
    rcases hr : cascadeRun env labelStrategyOrder with ⟨_ | pt, tr⟩
    · have := (cascadeRun_fst_none_iff env labelStrategyOrder).mp (by rw [hr])
      simp [clickByLabel, hr, horder.mp this]
    · have : ¬∀ s, env s = none := by
        intro hall
        have := (cascadeRun_fst_none_iff env labelStrategyOrder).mpr
          (fun s _ => hall s)
        rw [hr] at this
        exact Option.noConfusion this
      simp [clickByLabel, hr, this]
  · intro nodes fallback timeLabel viewH hnone hfb
    have h1 : ∀ (f : AriaNode → Option SlotMatch), (∀ n ∈ nodes, f n = none) →
        List.insertionSort (fun a b : SlotMatch => a.y ≤ b.y) (nodes.filterMap f) = [] := by
      intro f hf
      rw [List.filterMap_eq_nil_iff.mpr hf]
      rfl
    have hsem : findTimeSlotsSem nodes (normalizeTimeLabel timeLabel) viewH = [] := by
      unfold findTimeSlotsSem sortSlotsByY
      exact h1 _ (fun n hn => by simp [hnone n hn])
    simp [findTimeSlots, hsem, hfb, findTimeSlotsFallback, sortSlotsByY]

/-- Oracle with no clickable booking action for the C8 witness. -/
def c8envNone : String → BookingAttempt → Option Box := fun _ _ => none

/-- Sample aria node for the C8 witness. -/
def c8node : AriaNode := ⟨("7:30 PM Yoga"), 0, 100, 200, 40⟩

/-- Witness for C8: an empty cascade environment makes the mandatory click
throw, and a slot query over a non-matching node list returns the empty
list. -/
theorem mandatory_throw_iff_all_fail_witness :
    clickBookingAction c8envNone = .error ("Booking action button not found.") ∧
    findTimeSlots [c8node] [] ("6:00 AM") 720 = [] := by
  constructor
  · exact (mandatory_throw_iff_all_fail.1 c8envNone).mpr (by intro lab _ a; rfl)
  · exact mandatory_throw_iff_all_fail.2.2 [c8node] [] ("6:00 AM") 720 (by decide) rfl

/-! ## The `book-days` step (src/src/flows/schedule-book.flow.ts)

The per-slot record-producing state machine of the `book-days` step is
translated with its page queries as oracles: a `SlotEnv` carries, next to
the slot's label, the result each query would return for that slot
(`isReservedSlotInList`, `hasTimeLabel`, `hasClassLabel`,
`detectBookingOutcome` before and after the action, `hasBookingAction`,
the waitlist-only probe, and whether `clickBookingAction` would exhaust its
cascade and throw).  A `DayEnv` carries the day key, whether
`clickDayByKey` succeeds, and the day's matched slots (`slotsToUse` after
time/class matching, whose discovery is I/O-driven). -/

/-- Translation of `labelHasReserveSoon`. -/
def labelHasReserveSoon (label : String) : Bool :=
  containsSub ("reserve soon").data (lowerChars label)

/-- A `BookingRecord` as pushed into the flow-data buckets. -/
structure BookingRecord where
  day : String
  time : String
  className : String
  label : String
  status : BStatus
  note : Option String
deriving DecidableEq, Repr

/-- Oracle results for one matched slot (see section comment). -/
structure SlotEnv where
  label : String
  reservedInList : Bool
  hasTime : Bool
  hasClass : Bool
  preOutcome : BStatus
  hasAction : Bool
  waitlistOnly : Bool
  actionThrows : Bool
  postOutcome : BStatus
deriving DecidableEq, Repr

/-- Oracle results for one requested day. -/
structure DayEnv where
  day : String
  clickable : Bool
  slotsToUse : List SlotEnv
deriving DecidableEq, Repr

/-- The step parameters: `confirm`, `waitlist`, `class`, `time`. -/
structure RunParams where
  confirm : Bool
  allowWaitlist : Bool
  classParam : String
  timeParam : String
deriving DecidableEq, Repr

/-- Record constructor used by every push in the step. -/
def mkRec (p : RunParams) (day : String) (s : SlotEnv) (st : BStatus)
    (note : Option String) : BookingRecord :=
  ⟨day, p.timeParam, p.classParam, s.label, st, note⟩

/-- Control signal of one slot iteration: fall through to the next slot,
stop the whole run (the reserve-soon `return`), or propagate an
exception (`clickBookingAction` throwing). -/
inductive SlotSignal
  | next
  | stopRun
  | threw
deriving DecidableEq, Repr

/-- The records appended by one slot iteration, whether the booking-action
click was invoked, and the resulting control signal.  (`matches` is a Lean
keyword, so that bucket is called `matchesBucket` here.) -/
structure SlotStep where
  matchesBucket : List BookingRecord
  bookings : List BookingRecord
  attempts : List BookingRecord
  invokedAction : Bool
  signal : SlotSignal
deriving DecidableEq, Repr

/-- Translation of the body of `for (const slot of slotsToUse)`, in source
order of its guards. -/
def processSlot (p : RunParams) (day : String) (s : SlotEnv) : SlotStep :=
  if s.reservedInList then
    ⟨[], [mkRec p day s .reserved (some ("already-reserved-list"))], [], false, .next⟩
  else if labelHasReserveSoon s.label then
    ⟨[], [], [mkRec p day s .skipped (some ("reserve-soon"))], false, .stopRun⟩
  else if !p.confirm then
    ⟨[mkRec p day s .attempted none], [], [], false, .next⟩
  else if !s.hasTime then
    ⟨[], [], [mkRec p day s .skipped (some ("time-mismatch"))], false, .next⟩
  else if p.classParam ≠ "" ∧ s.hasClass = false then
    ⟨[], [], [mkRec p day s .skipped (some ("class-mismatch"))], false, .next⟩
  else if s.preOutcome = .reserved ∨ s.preOutcome = .waitlisted then
    ⟨[], [mkRec p day s s.preOutcome (some ("already-booked"))], [], false, .next⟩
  else if !s.hasAction then
    ⟨[], [], [mkRec p day s .unavailable (some ("no-booking-action"))], false, .next⟩
  else if p.allowWaitlist = false ∧ s.waitlistOnly = true then
    ⟨[], [], [mkRec p day s .skipped (some ("waitlist-only"))], false, .next⟩
  else if s.actionThrows then
    ⟨[], [], [], true, .threw⟩
  else if s.postOutcome = .reserved ∨ s.postOutcome = .waitlisted then
    ⟨[], [mkRec p day s s.postOutcome none], [], true, .next⟩
  else
    ⟨[], [], [mkRec p day s .attempted (some (statusName s.postOutcome))], true, .next⟩

/-- Flow data accumulated by the step: the three buckets (`matches`,
`bookings`, `attempts`) and the notice. -/
structure FlowData where
  matchesBucket : List BookingRecord
  bookings : List BookingRecord
  attempts : List BookingRecord
  notice : Option String
deriving DecidableEq, Repr

/-- Buckets at the start of the step. -/
def emptyFlowData : FlowData := ⟨[], [], [], none⟩

/-- Append one slot iteration's records (the reserve-soon branch also sets
the notice before returning). -/
def appendStep (fd : FlowData) (st : SlotStep) : FlowData :=
  ⟨fd.matchesBucket ++ st.matchesBucket, fd.bookings ++ st.bookings,
    fd.attempts ++ st.attempts,
    if st.signal = .stopRun then some ("reserve-soon") else fd.notice⟩

/-- The slot loop of one day, with the early exits of the source. -/
def processSlots (p : RunParams) (day : String) :
    List SlotEnv → FlowData → FlowData × SlotSignal
  | [], fd => (fd, .next)
  | s :: rest, fd =>
    let st := processSlot p day s
    match st.signal with
    | .next => processSlots p day rest (appendStep fd st)
    | sig => (appendStep fd st, sig)

/-- The day loop: an unclickable day sets the `day-buttons-missing` notice
and returns from the whole step; a `stopRun`/`threw` signal likewise ends
the step. -/
def runBookDays (p : RunParams) : List DayEnv → FlowData → FlowData
  | [], fd => fd
  | d :: rest, fd =>
    if !d.clickable then
      { fd with notice := some ("day-buttons-missing") }
    else
      match processSlots p d.day d.slotsToUse fd with
      | (fd2, .next) => runBookDays p rest fd2
      | (fd2, _) => fd2

/-- The whole `book-days` step over its oracle environment. -/
def bookDaysStep (p : RunParams) (days : List DayEnv) : FlowData :=
  runBookDays p days emptyFlowData

/-- C6: a slot classified as already reserved (or waitlisted) before any
booking action is attempted — detected in the schedule list or inside the
slot's details — is recorded in the bookings bucket with that status and a
note marking it as pre-existing, and the booking-action click is never
invoked for it. -/
theorem preexisting_reservation_no_click :
    ∀ (p : RunParams) (day : String) (s : SlotEnv),
      (s.reservedInList = true →
        processSlot p day s =
          ⟨[], [mkRec p day s .reserved (some ("already-reserved-list"))], [], false, .next⟩) ∧
      (s.reservedInList = false → labelHasReserveSoon s.label = false →
        p.confirm = true → s.hasTime = true →
        (p.classParam = "" ∨ s.hasClass = true) →
        (s.preOutcome = .reserved ∨ s.preOutcome = .waitlisted) →
        processSlot p day s =
          ⟨[], [mkRec p day s s.preOutcome (some ("already-booked"))], [], false, .next⟩) := by
  intro p day s
  constructor
  · intro h
    simp [processSlot, h]
  · intro h1 h2 h3 h4 h5 h6
    have hclass : ¬(p.classParam ≠ "" ∧ s.hasClass = false) := by
      rcases h5 with h5 | h5 <;> simp [h5]
    simp [processSlot, h1, h2, h3, h4, hclass, h6]

/-- Parameters used by the C6 witness. -/
def c6p : RunParams := ⟨true, false, ("CrossFit"), ("6:00 AM")⟩

/-- A slot already shown reserved in the schedule list. -/
def c6slotList : SlotEnv :=
  ⟨("6:00 AM CrossFit"), true, true, true, .unknown, true, false, false, .unknown⟩

/-- A slot whose details classify `reserved` before the action. -/
def c6slotDetails : SlotEnv :=
  ⟨("6:00 AM CrossFit"), false, true, true, .reserved, true, false, false, .unknown⟩

/-- Witness for C6: both pre-existing-reservation branches at concrete
inputs, with the booking-action click not invoked. -/
theorem preexisting_reservation_no_click_witness :
    processSlot c6p ("mon") c6slotList =
      ⟨[], [⟨("mon"), ("6:00 AM"), ("CrossFit"), ("6:00 AM CrossFit"), .reserved,
        some ("already-reserved-list")⟩], [], false, .next⟩ ∧
    processSlot c6p ("mon") c6slotDetails =
      ⟨[], [⟨("mon"), ("6:00 AM"), ("CrossFit"), ("6:00 AM CrossFit"), .reserved,
        some ("already-booked")⟩], [], false, .next⟩ := by
  constructor
  · have h := (preexisting_reservation_no_click c6p ("mon") c6slotList).1 rfl
    rw [h]
    decide
  · have h := (preexisting_reservation_no_click c6p ("mon") c6slotDetails).2 rfl
      (by decide) rfl rfl (Or.inr rfl) (Or.inl rfl)
    rw [h]
    decide

/-- Parameters for the C3 counterexample (a dry run). -/
def c3p : RunParams := ⟨false, false, ("CrossFit"), ("6:00 AM")⟩

/-- A slot carrying the reserve-soon marker that is also already shown
reserved in the schedule list. -/
def c3slotA : SlotEnv :=
  ⟨("6:00 AM CrossFit reserve soon"), true, true, true, .unknown, true, false, false, .unknown⟩

/-- An ordinary matched slot. -/
def c3slotB : SlotEnv :=
  ⟨("6:00 AM CrossFit"), false, true, true, .unknown, true, false, false, .unknown⟩

/-- Counterexample to C3: a slot whose label carries the reserve-soon
marker but which the list check already classifies reserved is recorded
`reserved`/`already-reserved-list` — not `skipped`/`reserve-soon` — and the
run continues into the next day (`isReservedSlotInList` is tested before
`labelHasReserveSoon`). -/
theorem reserve_soon_encounter_cex :
    labelHasReserveSoon c3slotA.label = true ∧
    bookDaysStep c3p [⟨("mon"), true, [c3slotA]⟩, ⟨("wed"), true, [c3slotB]⟩] =
      ⟨[⟨("wed"), ("6:00 AM"), ("CrossFit"), ("6:00 AM CrossFit"), .attempted, none⟩],
       [⟨("mon"), ("6:00 AM"), ("CrossFit"), ("6:00 AM CrossFit reserve soon"), .reserved,
         some ("already-reserved-list")⟩],
       [], none⟩ := by
  constructor
  · decide
  · decide

/-- Helper: a slot list whose iterations all signal `next` leaves the loop
with the `next` signal. -/
theorem processSlots_all_next (p : RunParams) (day : String) :
    ∀ (slots : List SlotEnv) (fd : FlowData),
      (∀ t ∈ slots, (processSlot p day t).signal = .next) →
      (processSlots p day slots fd).2 = .next := by
  intro slots
  induction slots with
  | nil => intro fd _; rfl
  | cons s rest ih =>
    intro fd hall
    have hs := hall s (by simp)
    simp only [processSlots]
    rw [hs]
    exact ih _ fun t ht => hall t (by simp [ht])

/-- C3 amended: whenever a slot that is *not* already shown reserved in the
schedule list carries the reserve-soon marker, the run appends exactly one
`skipped`/`reserve-soon` record for it (in the attempts bucket, with the
run notice set) and stops processing all remaining slots and days; for days
`[mon, wed, fri]` with the marker on `wed`'s first matching slot, `mon` is
fully processed and `fri` (and the rest of `wed`) produce no records.  (The
unamended claim fails when the marked slot is also reserved in the list:
that check runs first.) -/
theorem reserve_soon_global_abort :
    ∀ (p : RunParams) (monSlots : List SlotEnv) (s : SlotEnv)
      (wedRest friSlots : List SlotEnv),
      (∀ t ∈ monSlots, (processSlot p ("mon") t).signal = .next) →
      s.reservedInList = false → labelHasReserveSoon s.label = true →
      bookDaysStep p
        [⟨("mon"), true, monSlots⟩, ⟨("wed"), true, s :: wedRest⟩,
          ⟨("fri"), true, friSlots⟩] =
        ⟨(bookDaysStep p [⟨("mon"), true, monSlots⟩]).matchesBucket,
          (bookDaysStep p [⟨("mon"), true, monSlots⟩]).bookings,
          (bookDaysStep p [⟨("mon"), true, monSlots⟩]).attempts ++
            [mkRec p ("wed") s .skipped (some ("reserve-soon"))],
          some ("reserve-soon")⟩ := by
  intro p monSlots s wedRest friSlots hmon h1 h2
  have hstep : processSlot p ("wed") s =
      ⟨[], [], [mkRec p ("wed") s .skipped (some ("reserve-soon"))], false, .stopRun⟩ := by
    simp [processSlot, h1, h2]
  rcases hps : processSlots p ("mon") monSlots emptyFlowData with ⟨fdm, sig⟩
  have hsig : sig = .next := by
    have h := processSlots_all_next p ("mon") monSlots emptyFlowData hmon
    rw [hps] at h
    exact h
  subst hsig
  have hmonrun : bookDaysStep p [⟨("mon"), true, monSlots⟩] = fdm := by
    simp [bookDaysStep, runBookDays, hps]
  have hwed : processSlots p ("wed") (s :: wedRest) fdm =
      (appendStep fdm ⟨[], [], [mkRec p ("wed") s .skipped (some ("reserve-soon"))],
        false, .stopRun⟩, .stopRun) := by
    simp only [processSlots]
    rw [hstep]
  rw [hmonrun]
  simp [bookDaysStep, runBookDays, hps, hwed, appendStep]

/-- A reserve-soon-marked slot that is not already reserved in the list. -/
def c3slotMarked : SlotEnv :=
  ⟨("6:00 AM CrossFit reserve soon"), false, true, true, .unknown, true, false, false, .unknown⟩

/-- Witness for C3's amended theorem at a concrete three-day run. -/
theorem reserve_soon_global_abort_witness :
    bookDaysStep c3p
      [⟨("mon"), true, [c3slotB]⟩, ⟨("wed"), true, [c3slotMarked, c3slotB]⟩,
        ⟨("fri"), true, [c3slotB]⟩] =
      ⟨[⟨("mon"), ("6:00 AM"), ("CrossFit"), ("6:00 AM CrossFit"), .attempted, none⟩],
        [],
        [⟨("wed"), ("6:00 AM"), ("CrossFit"), ("6:00 AM CrossFit reserve soon"), .skipped,
          some ("reserve-soon")⟩],
        some ("reserve-soon")⟩ := by
  have h := reserve_soon_global_abort c3p [c3slotB] c3slotMarked [c3slotB] [c3slotB]
    (by decide) rfl (by decide)
  rw [h]
  decide

/-- Counterexample to C7: in a dry run, a matched slot without a
pre-existing reservation but carrying the reserve-soon marker produces no
record in the matches bucket at all (the reserve-soon abort is checked
before the confirm gate). -/
theorem dry_run_match_records_cex :
    c3p.confirm = false ∧ c3slotMarked.reservedInList = false ∧
    bookDaysStep c3p [⟨("mon"), true, [c3slotMarked]⟩] =
      ⟨[], [],
        [⟨("mon"), ("6:00 AM"), ("CrossFit"), ("6:00 AM CrossFit reserve soon"), .skipped,
          some ("reserve-soon")⟩],
        some ("reserve-soon")⟩ := by
  refine ⟨rfl, rfl, ?_⟩
  decide

/-- Helper: the dry-run slot loop appends one `attempted` matches record
per non-pre-reserved slot and one `reserved` bookings record per
pre-reserved slot, provided no non-pre-reserved slot carries the
reserve-soon marker. -/
theorem processSlots_dry (p : RunParams) (day : String) :
    ∀ (slots : List SlotEnv) (fd : FlowData), p.confirm = false →
      (∀ t ∈ slots, t.reservedInList = true ∨ labelHasReserveSoon t.label = false) →
      processSlots p day slots fd =
        (⟨fd.matchesBucket ++ (slots.filter (fun t => !t.reservedInList)).map
            (fun t => mkRec p day t .attempted none),
          fd.bookings ++ (slots.filter (fun t => t.reservedInList)).map
            (fun t => mkRec p day t .reserved (some ("already-reserved-list"))),
          fd.attempts, fd.notice⟩, .next) := by
  intro slots
  induction slots with
  | nil =>
    intro fd _ _
    simp [processSlots]
  | cons t rest ih =>
    intro fd hc hok
    cases hres : t.reservedInList with
    | false =>
      have hmk : labelHasReserveSoon t.label = false := by
        rcases hok t (by simp) with h | h
        · rw [hres] at h
          exact absurd h (by decide)
        · exact h
      have hstep : processSlot p day t =
          ⟨[mkRec p day t .attempted none], [], [], false, .next⟩ := by
        simp [processSlot, hres, hmk, hc]
      simp only [processSlots]
      rw [hstep]
      rw [ih _ hc fun x hx => hok x (by simp [hx])]
      simp [appendStep, hres, List.append_assoc]
    | true =>
      have hstep : processSlot p day t =
          ⟨[], [mkRec p day t .reserved (some ("already-reserved-list"))], [], false,
            .next⟩ := by
        simp [processSlot, hres]
      simp only [processSlots]
      rw [hstep]
      rw [ih _ hc fun x hx => hok x (by simp [hx])]
      simp [appendStep, hres, List.append_assoc]

/-- Helper: the dry-run day loop aggregates those per-day records, leaving
attempts and notice untouched. -/
theorem runBookDays_dry (p : RunParams) :
    ∀ (days : List DayEnv) (fd : FlowData), p.confirm = false →
      (∀ d ∈ days, d.clickable = true) →
      (∀ d ∈ days, ∀ t ∈ d.slotsToUse,
        t.reservedInList = true ∨ labelHasReserveSoon t.label = false) →
      runBookDays p days fd =
        ⟨fd.matchesBucket ++ days.flatMap (fun d =>
            (d.slotsToUse.filter (fun t => !t.reservedInList)).map
              (fun t => mkRec p d.day t .attempted none)),
          fd.bookings ++ days.flatMap (fun d =>
            (d.slotsToUse.filter (fun t => t.reservedInList)).map
              (fun t => mkRec p d.day t .reserved (some ("already-reserved-list")))),
          fd.attempts, fd.notice⟩ := by
  intro days
  induction days with
  | nil =>
    intro fd _ _ _
    simp [runBookDays]
  | cons d rest ih =>
    intro fd hc hclick hok
    have hd : d.clickable = true := hclick d (by simp)
    have hslots := processSlots_dry p d.day d.slotsToUse fd hc
      (fun t ht => hok d (by simp) t ht)
    have hih := ih
      (⟨fd.matchesBucket ++ (d.slotsToUse.filter (fun t => !t.reservedInList)).map
          (fun t => mkRec p d.day t .attempted none),
        fd.bookings ++ (d.slotsToUse.filter (fun t => t.reservedInList)).map
          (fun t => mkRec p d.day t .reserved (some ("already-reserved-list"))),
        fd.attempts, fd.notice⟩ : FlowData) hc
      (fun x hx => hclick x (by simp [hx]))
      (fun x hx t ht => hok x (by simp [hx]) t ht)
    simp only [runBookDays, hd]
    rw [hslots]
    simp [hih, List.append_assoc]

/-- C7 amended: with the confirm gate off, in a run where every day's
buttons resolve and no matched non-pre-reserved slot carries the
reserve-soon marker, every matched slot without a pre-existing reservation
produces exactly one `attempted` record in the matches bucket, the bookings
bucket receives only the pre-existing-reservation records, and nothing else
is written.  (The unamended claim fails on reserve-soon slots: their abort
precedes the confirm gate.) -/
theorem dry_run_match_records :
    ∀ (p : RunParams) (days : List DayEnv), p.confirm = false →
      (∀ d ∈ days, d.clickable = true) →
      (∀ d ∈ days, ∀ t ∈ d.slotsToUse,
        t.reservedInList = true ∨ labelHasReserveSoon t.label = false) →
      bookDaysStep p days =
        ⟨days.flatMap (fun d =>
            (d.slotsToUse.filter (fun t => !t.reservedInList)).map
              (fun t => mkRec p d.day t .attempted none)),
          days.flatMap (fun d =>
            (d.slotsToUse.filter (fun t => t.reservedInList)).map
              (fun t => mkRec p d.day t .reserved (some ("already-reserved-list")))),
          [], none⟩ := by
  intro p days hc hclick hok
  unfold bookDaysStep
  rw [runBookDays_dry p days emptyFlowData hc hclick hok]
  simp [emptyFlowData]

/-- The claim scenario's slot for the C7 witness. -/
def c7slot : SlotEnv :=
  ⟨("6:00 AM CrossFit"), false, true, true, .unknown, true, false, false, .unknown⟩

/-- Witness for C7's amended theorem: the spec's end-to-end scenario — one
matching slot, class filter CrossFit, time 6:00 AM, confirm off — yields a
single `attempted` matches record and an empty bookings bucket. -/
theorem dry_run_match_records_witness :
    bookDaysStep c3p [⟨("mon"), true, [c7slot]⟩] =
      ⟨[⟨("mon"), ("6:00 AM"), ("CrossFit"), ("6:00 AM CrossFit"), .attempted, none⟩],
        [], [], none⟩ := by
  have h := dry_run_match_records c3p [⟨("mon"), true, [c7slot]⟩] rfl (by decide)
    (by decide)
  rw [h]
  decide

/-! ## `clusterSemanticsFields` (login flow) -/

/-- A semantics text-field candidate (`SemanticsFieldBox` in the source). -/
structure SemanticsFieldBox where
  x : ℚ
  y : ℚ
  width : ℚ
  height : ℚ
  label : String
  role : String
deriving DecidableEq, Repr

/-- A cluster: anchor `y` (the first member's y) plus its members
(`SemanticsCluster` in the source). -/
structure SemanticsCluster where
  y : ℚ
  fields : List SemanticsFieldBox
deriving DecidableEq, Repr

instance fieldYLEDec : DecidableRel (fun a b : SemanticsFieldBox => a.y ≤ b.y) :=
  fun a b => inferInstanceAs (Decidable (a.y ≤ b.y))

/-- The `[...fields].sort((a, b) => a.y - b.y)` (JS sort is stable;
insertion sort is stable). -/
def sortFieldsByY (l : List SemanticsFieldBox) : List SemanticsFieldBox :=
  List.insertionSort (fun a b => a.y ≤ b.y) l

/-- The clustering walk: each sorted field joins the last cluster when its
y lies strictly within `threshold` of that cluster's anchor, else starts a
new cluster anchored at its own y. -/
def clusterLoop (threshold : ℚ) :
    List SemanticsFieldBox → SemanticsCluster → List SemanticsCluster
  | [], cur => [cur]
  | f :: rest, cur =>
    if |f.y - cur.y| < threshold then clusterLoop threshold rest ⟨cur.y, cur.fields ++ [f]⟩
    else cur :: clusterLoop threshold rest ⟨f.y, [f]⟩

/-- The clusters built by `clusterSemanticsFields` before the
representative selection. -/
def buildClusters (fields : List SemanticsFieldBox) (threshold : ℚ) :
    List SemanticsCluster :=
  match sortFieldsByY fields with
  | [] => []
  | f :: rest => clusterLoop threshold rest ⟨f.y, [f]⟩

/-- Bounding area of a candidate. -/
def fieldArea (f : SemanticsFieldBox) : ℚ := f.width * f.height

/-- The `cluster.fields.reduce(...)` picking the largest-area member
(first on ties); `none` is unreachable since clusters are nonempty. -/
def pickLargest (c : SemanticsCluster) : Option SemanticsFieldBox :=
  match c.fields with
  | [] => none
  | f :: rest =>
    some (rest.foldl (fun best cur => if fieldArea best < fieldArea cur then cur else best) f)

/-- Translation of `clusterSemanticsFields` (default threshold 40). -/
def clusterSemanticsFields (fields : List SemanticsFieldBox) (threshold : ℚ := 40) :
    List SemanticsFieldBox :=
  (buildClusters fields threshold).filterMap pickLargest

/-- Three stacked fields for the C4 counterexample. -/
def cexA : SemanticsFieldBox := ⟨0, 0, 10, 10, ("a"), ("r")⟩

/-- Second field, 30px below the first. -/
def cexB : SemanticsFieldBox := ⟨0, 30, 10, 10, ("b"), ("r")⟩

/-- Third field, 30px below the second. -/
def cexC : SemanticsFieldBox := ⟨0, 60, 10, 10, ("c"), ("r")⟩

/-- Counterexample to C4: membership is tested against the cluster anchor,
not pairwise — with threshold 40 the fields at y = 30 and y = 60 land in
different clusters although they are only 30 < 40 apart, refuting
"any two elements in different clusters are separated by more than the
threshold". -/
theorem cluster_separation_cex :
    buildClusters [cexA, cexB, cexC] 40 = [⟨0, [cexA, cexB]⟩, ⟨60, [cexC]⟩] ∧
    cexB ∈ [cexA, cexB] ∧ cexC ∈ [cexC] ∧ cexC.y - cexB.y < 40 := by
  refine ⟨?_, by simp, by simp, by norm_num [cexB, cexC]⟩
  norm_num [buildClusters, sortFieldsByY, List.insertionSort, List.orderedInsert,
    clusterLoop, cexA, cexB, cexC]

/-- Anchor invariant of a built cluster: its fields start with the anchor
element and every later member lies strictly within the threshold of the
anchor. -/
def clusterInv (threshold : ℚ) (c : SemanticsCluster) : Prop :=
  ∃ f0 tl, c.fields = f0 :: tl ∧ f0.y = c.y ∧ ∀ f ∈ tl, |f.y - c.y| < threshold

/-- Invariant lemma for the clustering walk. -/
theorem clusterLoop_spec (threshold : ℚ) :
    ∀ (rest : List SemanticsFieldBox) (cur : SemanticsCluster),
      List.Sorted (fun a b : SemanticsFieldBox => a.y ≤ b.y) rest →
      (∀ f ∈ rest, cur.y ≤ f.y) →
      clusterInv threshold cur →
      ((clusterLoop threshold rest cur).flatMap (fun c => c.fields) =
        cur.fields ++ rest) ∧
      (∀ c ∈ clusterLoop threshold rest cur, clusterInv threshold c) ∧
      (clusterLoop threshold rest cur).Chain' (fun c₁ c₂ => c₁.y + threshold ≤ c₂.y) ∧
      (∃ hd tail, clusterLoop threshold rest cur = hd :: tail ∧ hd.y = cur.y) := by
  intro rest
  induction rest with
  | nil =>
    intro cur _ _ hinv
    refine ⟨by simp [clusterLoop], ?_, by simp [clusterLoop], cur, [], by simp [clusterLoop],
      rfl⟩
    intro c hc
    simp [clusterLoop] at hc
    rw [hc]
    exact hinv
  | cons f rest' ih =>
    intro cur hs hall hinv
    have hs' : List.Sorted (fun a b : SemanticsFieldBox => a.y ≤ b.y) rest' :=
      (List.sorted_cons.mp hs).2
    have hf : ∀ g ∈ rest', f.y ≤ g.y := (List.sorted_cons.mp hs).1
    have hcf : cur.y ≤ f.y := hall f (by simp)
    by_cases hj : |f.y - cur.y| < threshold
    · have hall' : ∀ g ∈ rest', (⟨cur.y, cur.fields ++ [f]⟩ : SemanticsCluster).y ≤ g.y :=
        fun g hg => le_trans hcf (hf g hg)
      have hinv' : clusterInv threshold ⟨cur.y, cur.fields ++ [f]⟩ := by
        obtain ⟨f0, tl, hft, hf0, htl⟩ := hinv
        refine ⟨f0, tl ++ [f], by simp [hft], hf0, ?_⟩
        intro g hg
        rcases List.mem_append.mp hg with h | h
        · exact htl g h
        · simp at h
          subst h
          exact hj
      obtain ⟨h1, h2, h3, hd, tail, heq, hhd⟩ := ih ⟨cur.y, cur.fields ++ [f]⟩ hs' hall' hinv'
      simp only [clusterLoop, if_pos hj]
      exact ⟨by rw [h1]; simp, h2, h3, hd, tail, heq, hhd⟩
    · obtain ⟨h1, h2, h3, hd, tail, heq, hhd⟩ := ih ⟨f.y, [f]⟩ hs' hf
        ⟨f, [], rfl, rfl, by simp⟩
      have hsep : cur.y + threshold ≤ f.y := by
        have habs : |f.y - cur.y| = f.y - cur.y := abs_of_nonneg (by linarith)
        rw [habs] at hj
        linarith [not_lt.mp hj]
      simp only [clusterLoop, if_neg hj]
      refine ⟨by simp [h1], ?_, ?_, cur, _, rfl, rfl⟩
      · intro c hc
        rcases List.mem_cons.mp hc with h | h
        · rw [h]; exact hinv
        · exact h2 c h
      · rw [heq, List.chain'_cons]
        rw [heq] at h3
        exact ⟨by rw [hhd]; exact hsep, h3⟩

/-- The largest-area fold keeps a member and dominates every member. -/
theorem foldl_largest :
    ∀ (l : List SemanticsFieldBox) (b : SemanticsFieldBox),
      (l.foldl (fun best cur => if fieldArea best < fieldArea cur then cur else best) b)
          ∈ b :: l ∧
      ∀ f ∈ b :: l,
        fieldArea f ≤
          fieldArea
            (l.foldl (fun best cur => if fieldArea best < fieldArea cur then cur else best)
              b) := by
  intro l
  induction l with
  | nil => intro b; simp
  | cons c l' ih =>
    intro b
    by_cases hbc : fieldArea b < fieldArea c
    · obtain ⟨hmem, hbound⟩ := ih c
      simp only [List.foldl_cons, if_pos hbc]
      constructor
      · rcases List.mem_cons.mp hmem with h | h
        · rw [h]; simp
        · simp [h]
      · intro f hf
        rcases List.mem_cons.mp hf with h | hf'
        · rw [h]
          exact le_trans (le_of_lt hbc) (hbound c (by simp))
        · exact hbound f hf'
    · obtain ⟨hmem, hbound⟩ := ih b
      simp only [List.foldl_cons, if_neg hbc]
      constructor
      · rcases List.mem_cons.mp hmem with h | h
        · rw [h]; simp
        · simp [h]
      · intro f hf
        rcases List.mem_cons.mp hf with h | hf'
        · rw [h]
          exact hbound b (by simp)
        · rcases List.mem_cons.mp hf' with h | h
          · rw [h]
            exact le_trans (not_lt.mp hbc) (hbound b (by simp))
          · exact hbound f (by simp [h])

/-- A nonempty cluster has a representative: a member of maximal area. -/
theorem pickLargest_spec (c : SemanticsCluster) (f0 : SemanticsFieldBox)
    (tl : List SemanticsFieldBox) (hft : c.fields = f0 :: tl) :
    ∃ rep, pickLargest c = some rep ∧ rep ∈ c.fields ∧
      ∀ f ∈ c.fields, fieldArea f ≤ fieldArea rep := by
  obtain ⟨hmem, hbound⟩ := foldl_largest tl f0
  refine ⟨tl.foldl (fun best cur => if fieldArea best < fieldArea cur then cur else best) f0,
    ?_, ?_, ?_⟩
  · simp [pickLargest, hft]
  · rw [hft]; exact hmem
  · rw [hft]; exact hbound

instance : IsTotal SemanticsFieldBox (fun a b => a.y ≤ b.y) :=
  ⟨fun a b => le_total a.y b.y⟩

instance : IsTrans SemanticsFieldBox (fun a b => a.y ≤ b.y) :=
  ⟨fun _ _ _ h1 h2 => le_trans h1 h2⟩

/-- C4 amended: the clusters partition the input (their concatenation is a
permutation of it); every member of a cluster lies strictly within the
threshold of the cluster's *anchor* (its first member in sorted order);
consecutive cluster anchors are at least the threshold apart; and the
representative returned for each cluster is a member with the largest
bounding area (the first such on ties).  The unamended pairwise-separation
guarantee fails: members of adjacent clusters can be within the
threshold of each other. -/
theorem cluster_anchor_spec :
    ∀ (fields : List SemanticsFieldBox) (threshold : ℚ),
      ((buildClusters fields threshold).flatMap (fun c => c.fields)).Perm fields ∧
      (∀ c ∈ buildClusters fields threshold, clusterInv threshold c) ∧
      (buildClusters fields threshold).Chain' (fun c₁ c₂ => c₁.y + threshold ≤ c₂.y) ∧
      (∀ c ∈ buildClusters fields threshold, ∃ rep, pickLargest c = some rep ∧
        rep ∈ c.fields ∧ ∀ f ∈ c.fields, fieldArea f ≤ fieldArea rep) ∧
      clusterSemanticsFields fields threshold =
        (buildClusters fields threshold).filterMap pickLargest := by
  intro fields threshold
  have hperm : (sortFieldsByY fields).Perm fields := by
    unfold sortFieldsByY
    exact List.perm_insertionSort _ fields
  have hsorted : List.Sorted (fun a b : SemanticsFieldBox => a.y ≤ b.y)
      (sortFieldsByY fields) := by
    unfold sortFieldsByY
    exact List.sorted_insertionSort _ fields
  rcases hsf : sortFieldsByY fields with _ | ⟨f, rest⟩
  · have : fields = [] := by
      have := hperm
      rw [hsf] at this
      exact (List.Perm.nil_eq this).symm
    subst this
    refine ⟨?_, ?_, ?_, ?_, rfl⟩ <;> simp [buildClusters, hsf]
  · rw [hsf] at hsorted hperm
    have hs' : List.Sorted (fun a b : SemanticsFieldBox => a.y ≤ b.y) rest :=
      (List.sorted_cons.mp hsorted).2
    have hall : ∀ g ∈ rest, (⟨f.y, [f]⟩ : SemanticsCluster).y ≤ g.y :=
      (List.sorted_cons.mp hsorted).1
    obtain ⟨h1, h2, h3, _⟩ := clusterLoop_spec threshold rest ⟨f.y, [f]⟩ hs' hall
      ⟨f, [], rfl, rfl, by simp⟩
    have hbc : buildClusters fields threshold = clusterLoop threshold rest ⟨f.y, [f]⟩ := by
      simp [buildClusters, hsf]
    refine ⟨?_, by rw [hbc]; exact h2, by rw [hbc]; exact h3, ?_, rfl⟩
    · rw [hbc, h1]
      simpa using hperm
    · intro c hc
      rw [hbc] at hc
      obtain ⟨f0, tl, hft, _, _⟩ := h2 c hc
      exact pickLargest_spec c f0 tl hft

/-- Witness for C4's amended theorem at a concrete field list. -/
theorem cluster_anchor_spec_witness :
    ((buildClusters [cexA, cexB, cexC] 40).flatMap (fun c => c.fields)).Perm
      [cexA, cexB, cexC] ∧
    clusterSemanticsFields [cexA, cexB, cexC] 40 =
      (buildClusters [cexA, cexB, cexC] 40).filterMap pickLargest ∧
    clusterSemanticsFields [cexA, cexB, cexC] 40 = [cexA, cexC] := by
  have h := cluster_anchor_spec [cexA, cexB, cexC] 40
  refine ⟨h.1, h.2.2.2.2, ?_⟩
  norm_num [clusterSemanticsFields, buildClusters, sortFieldsByY, List.insertionSort,
    List.orderedInsert, clusterLoop, cexA, cexB, cexC]
  norm_num [pickLargest, List.filterMap_cons, fieldArea]

/-! ## `attachClassLabelsToSlots` (src/src/flows/schedule-book.flow.ts) -/

/-- Vertical center of a slot card. -/
def slotCenterY (s : SlotMatch) : ℚ := s.y + s.height / 2

/-- Vertical center of a class label. -/
def labelCenterY (l : LabelMatch) : ℚ := l.y + l.height / 2

/-- The association distance: absolute difference of vertical centers. -/
def distTo (s : SlotMatch) (l : LabelMatch) : ℚ := |labelCenterY l - slotCenterY s|

/-- The `.sort((a, b) => a - b)` over the slot centers. -/
def sortedCenters (slots : List SlotMatch) : List ℚ :=
  List.insertionSort (· ≤ ·) (slots.map slotCenterY)

/-- Differences of consecutive entries of a list. -/
def consecGaps : List ℚ → List ℚ
  | a :: b :: rest => (b - a) :: consecGaps (b :: rest)
  | _ => []

/-- The `gaps` array: consecutive sorted-center differences exceeding 1. -/
def slotGaps (slots : List SlotMatch) : List ℚ :=
  (consecGaps (sortedCenters slots)).filter (fun d => 1 < d)

/-- The `minGap`: `Math.min(...gaps)`, defaulting to 80 with no gaps. -/
def minGapOf (slots : List SlotMatch) : ℚ :=
  match slotGaps slots with
  | [] => 80
  | g :: gs => gs.foldl min g

/-- The dynamic association radius
`Math.max(60, Math.min(140, Math.round(minGap * 0.75)))`. -/
def maxDistanceOf (slots : List SlotMatch) : ℚ :=
  max 60 (min 140 ((jsRound (minGapOf slots * (3/4)) : ℤ) : ℚ))

/-- The inner `for (const label of classLabels)` keeping the strictly
closest label seen so far (ties keep the earlier label). -/
def bestLoop (s : SlotMatch) : List LabelMatch → LabelMatch × ℚ → LabelMatch × ℚ
  | [], best => best
  | l :: rest, best =>
    if distTo s l < best.2 then bestLoop s rest (l, distTo s l) else bestLoop s rest best

/-- The `best` accumulator over all labels (`none` only for no labels). -/
def bestLabelFor (s : SlotMatch) : List LabelMatch → Option (LabelMatch × ℚ)
  | [] => none
  | l :: rest => some (bestLoop s rest (l, distTo s l))

/-- Translation of `attachClassLabelsToSlots`. -/
def attachClassLabelsToSlots (slots : List SlotMatch) (classLabels : List LabelMatch) :
    List SlotMatch :=
  if slots = [] ∨ classLabels = [] then []
  else
    slots.filterMap (fun s =>
      match bestLabelFor s classLabels with
      | some (bl, bd) =>
        if bd ≤ maxDistanceOf slots then some { s with classLabel := some bl } else none
      | none => none)

/-- The claim's radius: derived from the minimum *pairwise* gap between
slot centers (stated-spec definition, to be compared with the source's). -/
def pairGaps : List ℚ → List ℚ
  | [] => []
  | c :: rest => rest.map (fun d => |d - c|) ++ pairGaps rest

/-- Minimum pairwise center gap per the claim's wording (default 80 when no
pair exists, matching the source's default). -/
def specMinPairGap (slots : List SlotMatch) : ℚ :=
  match pairGaps (slots.map slotCenterY) with
  | [] => 80
  | g :: gs => gs.foldl min g

/-- The claim's association radius `max(60, min(140, round(0.75 × G)))`
with `G` the minimum pairwise gap. -/
def specRadiusC1 (slots : List SlotMatch) : ℚ :=
  max 60 (min 140 ((jsRound (specMinPairGap slots * (3/4)) : ℤ) : ℚ))

/-- Evaluation helper for `jsRound` at concrete points. -/
theorem jsRound_eq (q : ℚ) (z : ℤ) (h1 : (z : ℚ) ≤ q + 1/2) (h2 : q + 1/2 < z + 1) :
    jsRound q = z := by
  unfold jsRound
  rw [Int.floor_eq_iff]
  exact ⟨h1, by linarith⟩

/-- First counterexample slot: center 100. -/
def c1s1 : SlotMatch := ⟨0, 90, 100, 20, ("s1"), none⟩

/-- Second counterexample slot: center 100 as well (a duplicate center). -/
def c1s2 : SlotMatch := ⟨0, 80, 100, 40, ("s2"), none⟩

/-- Third counterexample slot: center 200. -/
def c1s3 : SlotMatch := ⟨0, 190, 100, 20, ("s3"), none⟩

/-- The class label: center 170. -/
def c1lbl : LabelMatch := ⟨0, 160, 50, 20, ("CrossFit")⟩

/-- Counterexample to C1: with duplicate slot centers the minimum pairwise
gap is 0, so the claim's radius is max(60, min(140, 0)) = 60 — but the code
only collects consecutive sorted-center gaps exceeding 1px, derives radius
75 here, and associates a slot whose nearest label is 70 > 60 away. -/
theorem attach_radius_cex :
    specRadiusC1 [c1s1, c1s2, c1s3] = 60 ∧
    maxDistanceOf [c1s1, c1s2, c1s3] = 75 ∧
    distTo c1s1 c1lbl = 70 ∧
    attachClassLabelsToSlots [c1s1, c1s2, c1s3] [c1lbl] =
      [{ c1s1 with classLabel := some c1lbl }, { c1s2 with classLabel := some c1lbl },
        { c1s3 with classLabel := some c1lbl }] := by
  have hpair : specMinPairGap [c1s1, c1s2, c1s3] = 0 := by
    norm_num [specMinPairGap, pairGaps, slotCenterY, c1s1, c1s2, c1s3]
  have hmin : minGapOf [c1s1, c1s2, c1s3] = 100 := by
    norm_num [minGapOf, slotGaps, consecGaps, sortedCenters, List.insertionSort,
      List.orderedInsert, slotCenterY, c1s1, c1s2, c1s3]
  refine ⟨?_, ?_, ?_, ?_⟩
  · rw [specRadiusC1, hpair]
    rw [show jsRound ((0 : ℚ) * (3/4)) = 0 from jsRound_eq _ 0 (by norm_num) (by norm_num)]
    norm_num
  · rw [maxDistanceOf, hmin]
    rw [show jsRound ((100 : ℚ) * (3/4)) = 75 from
      jsRound_eq _ 75 (by norm_num) (by norm_num)]
    norm_num
  · norm_num [distTo, labelCenterY, slotCenterY, c1s1, c1lbl]
  · have hrad : maxDistanceOf [c1s1, c1s2, c1s3] = 75 := by
      rw [maxDistanceOf, hmin]
      rw [show jsRound ((100 : ℚ) * (3/4)) = 75 from
        jsRound_eq _ 75 (by norm_num) (by norm_num)]
      norm_num
    simp only [attachClassLabelsToSlots]
    simp only [hrad]
    norm_num [List.filterMap_cons, bestLabelFor, bestLoop, distTo, labelCenterY,
      slotCenterY, c1s1, c1s2, c1s3, c1lbl]
    exact fun h => absurd h (by simp)

/-- Characterization of the strict-improvement fold: its result is the
first global minimizer of the distances over the seed and the walked
labels. -/
theorem bestLoop_eq_iff (s : SlotMatch) :
    ∀ (ls : List LabelMatch) (bl l : LabelMatch) (d : ℚ),
      bestLoop s ls (bl, distTo s bl) = (l, d) ↔
        ∃ pre post, bl :: ls = pre ++ l :: post ∧ d = distTo s l ∧
          (∀ x ∈ bl :: ls, d ≤ distTo s x) ∧ (∀ x ∈ pre, d < distTo s x) := by
  intro ls
  induction ls with
  | nil =>
    intro bl l d
    rw [bestLoop]
    constructor
    · intro h
      have h1 : bl = l := congrArg Prod.fst h
      have h2 : distTo s bl = d := congrArg Prod.snd h
      subst h1
      refine ⟨[], [], by simp, h2.symm, ?_, by simp⟩
      intro y hy
      simp at hy
      rw [hy]
      exact le_of_eq h2.symm
    · rintro ⟨pre, post, hdec, hd, hmin, _⟩
      cases pre with
      | nil =>
        simp only [List.nil_append] at hdec
        injection hdec with h1 h2
        rw [h1, hd]
      | cons p pre' =>
        injection hdec with h1 h2
        exact absurd h2.symm (by simp)
  | cons x rest ih =>
    intro bl l d
    by_cases hx : distTo s x < distTo s bl
    · rw [show bestLoop s (x :: rest) (bl, distTo s bl) =
          bestLoop s rest (x, distTo s x) from by rw [bestLoop, if_pos hx]]
      rw [ih x l d]
      constructor
      · rintro ⟨pre, post, hdec, hd, hmin, hpre⟩
        have hdx : d ≤ distTo s x := hmin x (by simp)
        refine ⟨bl :: pre, post, by rw [List.cons_append, hdec], hd, ?_, ?_⟩
        · intro y hy
          rcases List.mem_cons.mp hy with h | h
          · rw [h]
            exact le_of_lt (lt_of_le_of_lt hdx hx)
          · exact hmin y h
        · intro y hy
          rcases List.mem_cons.mp hy with h | h
          · rw [h]
            exact lt_of_le_of_lt hdx hx
          · exact hpre y h
      · rintro ⟨pre, post, hdec, hd, hmin, hpre⟩
        cases pre with
        | nil =>
          simp only [List.nil_append] at hdec
          injection hdec with h1 h2
          exfalso
          have hle := hmin x (by simp)
          rw [hd, ← h1] at hle
          exact absurd (lt_of_le_of_lt hle hx) (lt_irrefl _)
        | cons p pre' =>
          injection hdec with h1 h2
          subst h1
          exact ⟨pre', post, h2, hd, fun y hy => hmin y (by simp [hy]),
            fun y hy => hpre y (by simp [hy])⟩
    · rw [show bestLoop s (x :: rest) (bl, distTo s bl) =
          bestLoop s rest (bl, distTo s bl) from by rw [bestLoop, if_neg hx]]
      rw [ih bl l d]
      constructor
      · rintro ⟨pre, post, hdec, hd, hmin, hpre⟩
        cases pre with
        | nil =>
          simp only [List.nil_append] at hdec
          injection hdec with h1 h2
          refine ⟨[], x :: post, by simp [h1, h2], hd, ?_, by simp⟩
          intro y hy
          rcases List.mem_cons.mp hy with h | h
          · rw [h]
            exact hmin bl (by simp)
          · rcases List.mem_cons.mp h with h | h
            · rw [h, hd, ← h1]
              exact not_lt.mp hx
            · exact hmin y (by simp [h])
        | cons p pre' =>
          injection hdec with h1 h2
          subst h1
          have hdb : d < distTo s bl := hpre bl (by simp)
          have hdx : d < distTo s x := lt_of_lt_of_le hdb (not_lt.mp hx)
          refine ⟨bl :: x :: pre', post, by rw [h2]; rfl, hd, ?_, ?_⟩
          · intro y hy
            rcases List.mem_cons.mp hy with h | h
            · rw [h]
              exact le_of_lt hdb
            · rcases List.mem_cons.mp h with h | h
              · rw [h]
                exact le_of_lt hdx
              · exact hmin y (by simp [h])
          · intro y hy
            rcases List.mem_cons.mp hy with h | h
            · rw [h]
              exact hdb
            · rcases List.mem_cons.mp h with h | h
              · rw [h]
                exact hdx
              · exact hpre y (by simp [h])
      · rintro ⟨pre, post, hdec, hd, hmin, hpre⟩
        cases pre with
        | nil =>
          simp only [List.nil_append] at hdec
          injection hdec with h1 h2
          refine ⟨[], rest, by simp [h1], hd, ?_, by simp⟩
          intro y hy
          exact hmin y (by rcases List.mem_cons.mp hy with h | h <;> simp [h])
        | cons p pre' =>
          injection hdec with h1 h2
          subst h1
          cases pre' with
          | nil =>
            injection h2 with h3 h4
            exfalso
            have hdb := hpre bl (by simp)
            rw [hd, ← h3] at hdb
            exact hx hdb
          | cons q pre'' =>
            injection h2 with h3 h4
            subst h3
            refine ⟨bl :: pre'', post, by rw [h4]; rfl, hd, ?_, ?_⟩
            · intro y hy
              rcases List.mem_cons.mp hy with h | h
              · exact hmin y (by simp [h])
              · exact hmin y (by simp [h])
            · intro y hy
              rcases List.mem_cons.mp hy with h | h
              · exact hpre y (by simp [h])
              · exact hpre y (by simp [h])

/-- Characterization of `bestLabelFor`: it returns the first label at
minimum distance, together with that distance. -/
theorem bestLabelFor_eq_iff (s : SlotMatch) (labels : List LabelMatch)
    (l : LabelMatch) (d : ℚ) :
    bestLabelFor s labels = some (l, d) ↔
      ∃ pre post, labels = pre ++ l :: post ∧ d = distTo s l ∧
        (∀ x ∈ labels, d ≤ distTo s x) ∧ (∀ x ∈ pre, d < distTo s x) := by
  cases labels with
  | nil =>
    simp only [bestLabelFor]
    constructor
    · intro h
      exact Option.noConfusion h
    · rintro ⟨pre, post, hdec, _⟩
      exact absurd hdec (by cases pre <;> simp)
  | cons b rest =>
    rw [show bestLabelFor s (b :: rest) = some (bestLoop s rest (b, distTo s b)) from rfl]
    rw [Option.some.injEq]
    exact bestLoop_eq_iff s rest b l d

/-- The `min`-fold computes the minimum of seed and list. -/
theorem foldl_min_spec :
    ∀ (gs : List ℚ) (g : ℚ),
      (gs.foldl min g) ∈ g :: gs ∧ ∀ x ∈ g :: gs, gs.foldl min g ≤ x := by
  intro gs
  induction gs with
  | nil => intro g; simp
  | cons a gs' ih =>
    intro g
    obtain ⟨hmem, hbound⟩ := ih (min g a)
    simp only [List.foldl_cons]
    constructor
    · rcases List.mem_cons.mp hmem with h | h
      · rcases le_total g a with hga | hga
        · rw [h, min_eq_left hga]
          simp
        · rw [h, min_eq_right hga]
          simp
      · simp [h]
    · intro x hx
      rcases List.mem_cons.mp hx with h | h
      · rw [h]
        exact le_trans (hbound _ (by simp)) (min_le_left g a)
      · rcases List.mem_cons.mp h with h | h
        · rw [h]
          exact le_trans (hbound _ (by simp)) (min_le_right g a)
        · exact hbound x (by simp [h])

/-- C1 amended: the radius is `max(60, min(140, round(0.75 × G)))` where
`G` is the minimum of the gaps between *consecutive sorted* slot centers
that exceed 1px, defaulting to 80 when none exists (not the minimum
pairwise gap); with nonempty inputs a slot appears in the result exactly
when its nearest label (first on ties) lies within the radius of its
vertical center — a label exactly at the radius included — and carries that
label; slots with no label within the radius are dropped. -/
theorem attach_assoc_amended :
    ∀ (slots : List SlotMatch) (classLabels : List LabelMatch),
      (slots = [] ∨ classLabels = [] →
        attachClassLabelsToSlots slots classLabels = []) ∧
      (60 ≤ maxDistanceOf slots ∧ maxDistanceOf slots ≤ 140) ∧
      maxDistanceOf slots =
        max 60 (min 140 ((jsRound (minGapOf slots * (3/4)) : ℤ) : ℚ)) ∧
      (slotGaps slots = [] → minGapOf slots = 80) ∧
      (slotGaps slots ≠ [] → minGapOf slots ∈ slotGaps slots ∧
        ∀ g ∈ slotGaps slots, minGapOf slots ≤ g) ∧
      (sortedCenters slots).Perm (slots.map slotCenterY) ∧
      List.Sorted (· ≤ ·) (sortedCenters slots) ∧
      (∀ r, r ∈ attachClassLabelsToSlots slots classLabels ↔
        ∃ s ∈ slots, ∃ pre l post, classLabels = pre ++ l :: post ∧
          r = { s with classLabel := some l } ∧
          distTo s l ≤ maxDistanceOf slots ∧
          (∀ x ∈ classLabels, distTo s l ≤ distTo s x) ∧
          (∀ x ∈ pre, distTo s l < distTo s x)) := by
  intro slots classLabels
  refine ⟨?_, ⟨le_max_left _ _, max_le (by norm_num) (min_le_left _ _)⟩, rfl, ?_, ?_,
    ?_, ?_, ?_⟩
  · intro h
    rw [attachClassLabelsToSlots, if_pos h]
  · intro h
    rw [minGapOf, h]
  · intro h
    rcases hg : slotGaps slots with _ | ⟨g, gs⟩
    · exact absurd hg h
    · have hval : minGapOf slots = gs.foldl min g := by
        rw [minGapOf, hg]
      obtain ⟨hm, hb2⟩ := foldl_min_spec gs g
      constructor
      · rw [hval]
        exact hm
      · intro x hx
        rw [hval]
        exact hb2 x hx
  · unfold sortedCenters
    exact List.perm_insertionSort _ _
  · unfold sortedCenters
    exact List.sorted_insertionSort _ _
  · intro r
    constructor
    · intro hr
      by_cases hemp : slots = [] ∨ classLabels = []
      · rw [attachClassLabelsToSlots, if_pos hemp] at hr
        exact absurd hr (by simp)
      · rw [attachClassLabelsToSlots, if_neg hemp] at hr
        obtain ⟨s, hs, hfs⟩ := List.mem_filterMap.mp hr
        rcases hb : bestLabelFor s classLabels with _ | ⟨bl, bd⟩
        · rw [hb] at hfs
          exact absurd hfs (by simp)
        · simp only [hb] at hfs
          by_cases hle : bd ≤ maxDistanceOf slots
          · rw [if_pos hle] at hfs
            injection hfs with hfs
            obtain ⟨pre, post, hdec, hd, hmin, hpre⟩ :=
              (bestLabelFor_eq_iff s classLabels bl bd).mp hb
            refine ⟨s, hs, pre, bl, post, hdec, hfs.symm, by rw [← hd]; exact hle,
              ?_, ?_⟩
            · intro x hx
              rw [← hd]
              exact hmin x hx
            · intro x hx
              rw [← hd]
              exact hpre x hx
          · rw [if_neg hle] at hfs
            exact absurd hfs (by simp)
    · rintro ⟨s, hs, pre, l, post, hdec, hr, hle, hmin, hpre⟩
      have hb : bestLabelFor s classLabels = some (l, distTo s l) :=
        (bestLabelFor_eq_iff s classLabels l (distTo s l)).mpr
          ⟨pre, post, hdec, rfl, hmin, hpre⟩
      have hemp : ¬(slots = [] ∨ classLabels = []) := by
        rintro (h | h)
        · rw [h] at hs
          exact absurd hs (by simp)
        · rw [h] at hdec
          exact absurd hdec (by cases pre <;> simp)
      rw [attachClassLabelsToSlots, if_neg hemp]
      refine List.mem_filterMap.mpr ⟨s, hs, ?_⟩
      simp only [hb]
      rw [if_pos hle, hr]

/-- Witness for C1's amended theorem: a single slot has no qualifying gap,
so the radius bottoms out at 60 and its label 30px away is attached. -/
theorem attach_assoc_amended_witness :
    (60 ≤ maxDistanceOf [c1s3] ∧ maxDistanceOf [c1s3] ≤ 140) ∧
    { c1s3 with classLabel := some c1lbl } ∈
      attachClassLabelsToSlots [c1s3] [c1lbl] := by
  have h := attach_assoc_amended [c1s3] [c1lbl]
  have hmin80 : minGapOf [c1s3] = 80 := h.2.2.2.1 rfl
  have hrad : maxDistanceOf [c1s3] = 60 := by
    rw [maxDistanceOf, hmin80,
      show jsRound ((80 : ℚ) * (3/4)) = 60 from jsRound_eq _ 60 (by norm_num) (by norm_num)]
    norm_num
  refine ⟨h.2.1, ?_⟩
  refine (h.2.2.2.2.2.2.2 _).mpr ⟨c1s3, by simp, [], c1lbl, [], rfl, rfl, ?_, ?_, by simp⟩
  · rw [hrad]
    norm_num [distTo, labelCenterY, slotCenterY, c1s3, c1lbl]
  · intro x hx
    simp at hx
    rw [hx]

/-! ## `waitForStablePosition` (login flow)

The poll loop is embedded over the list of poll results the page would
deliver: one entry per loop iteration the timeout budget allows (the loop
sleeps a fixed 150ms each iteration, so the budget is `timeout / 150`
entries); `none` is a poll on which the element is absent (or has an empty
box), `some y` the element's top-edge coordinate.  The source function
returns `void`; its two distinct exits — the early `return` once
`stableCount` reaches 5, and the fall-through after the timeout — are
reified as `stable` and `timedOut`. -/

/-- Exit taken by the stability waiter. -/
inductive WaitResult
  | stable
  | timedOut
deriving DecidableEq, Repr

/-- Translation of the `while` loop of `waitForStablePosition`, carrying
`lastY`, `stableCount` and the number of polls consumed. -/
def waitGo : Option ℚ → ℕ → List (Option ℚ) → ℕ → WaitResult × ℕ
  | _, _, [], n => (.timedOut, n)
  | lastY, cnt, none :: rest, n => waitGo lastY cnt rest (n + 1)
  | lastY, cnt, some y :: rest, n =>
    match lastY with
    | some ly =>
      if |y - ly| < 1 then
        if 5 ≤ cnt + 1 then (.stable, n + 1)
        else waitGo (some ly) (cnt + 1) rest (n + 1)
      else waitGo (some y) 0 rest (n + 1)
    | none => waitGo (some y) 0 rest (n + 1)

/-- Translation of `waitForStablePosition` over its poll trace. -/
def waitForStablePosition (polls : List (Option ℚ)) : WaitResult × ℕ :=
  waitGo none 0 polls 0

/-- Specification-side scan state: no reading yet, or an anchor with the
count of consecutive within-1px confirmations, or stability declared. -/
inductive ScanSt
  | fresh
  | tracking (anchor : ℚ) (cnt : ℕ)
  | done
deriving DecidableEq, Repr

/-- Specification-side step over the present readings: a reading within
1px of the anchor increments the confirmation count (5 declares
stability); a deviating reading re-anchors. -/
def scanStep : ScanSt → ℚ → ScanSt
  | .done, _ => .done
  | .fresh, y => .tracking y 0
  | .tracking a c, y =>
    if |y - a| < 1 then (if 5 ≤ c + 1 then .done else .tracking a (c + 1))
    else .tracking y 0

/-- Loop state corresponding to a scan state. -/
def toScan : Option ℚ → ℕ → ScanSt
  | none, _ => .fresh
  | some ly, c => .tracking ly c

/-- Stability is absorbing for the scan. -/
theorem foldl_scanStep_done : ∀ ys : List ℚ, ys.foldl scanStep .done = .done := by
  intro ys
  induction ys with
  | nil => rfl
  | cons y rest ih => simpa [scanStep] using ih

/-- A loop state never corresponds to the `done` scan state. -/
theorem toScan_ne_done (lastY : Option ℚ) (cnt : ℕ) : toScan lastY cnt ≠ .done := by
  cases lastY <;> simp [toScan]

/-- Correspondence between the loop and the scan: poll-count bounds, and
the loop exits `stable` exactly when the scan of the present readings
reaches `done`. -/
theorem waitGo_spec :
    ∀ (polls : List (Option ℚ)) (lastY : Option ℚ) (cnt n : ℕ),
      (n ≤ (waitGo lastY cnt polls n).2 ∧
        (waitGo lastY cnt polls n).2 ≤ n + polls.length) ∧
      ((waitGo lastY cnt polls n).1 = .timedOut →
        (waitGo lastY cnt polls n).2 = n + polls.length) ∧
      ((waitGo lastY cnt polls n).1 = .stable ↔
        (polls.filterMap id).foldl scanStep (toScan lastY cnt) = .done) := by
  intro polls
  induction polls with
  | nil =>
    intro lastY cnt n
    refine ⟨⟨le_refl n, by simp [waitGo]⟩, by simp [waitGo], ?_⟩
    simp only [waitGo, List.filterMap_nil, List.foldl_nil]
    constructor
    · intro h
      exact absurd h (by simp)
    · intro h
      exact absurd h (toScan_ne_done lastY cnt)
  | cons p rest ih =>
    intro lastY cnt n
    cases p with
    | none =>
      have h := ih lastY cnt (n + 1)
      have hred : waitGo lastY cnt (none :: rest) n = waitGo lastY cnt rest (n + 1) := rfl
      refine ⟨⟨?_, ?_⟩, ?_, ?_⟩
      · rw [hred]
        exact le_trans (by omega) h.1.1
      · rw [hred]
        have := h.1.2
        simp only [List.length_cons]
        omega
      · intro ht
        rw [hred] at ht ⊢
        rw [h.2.1 ht]
        simp only [List.length_cons]
        omega
      · rw [hred]
        simpa using h.2.2
    | some y =>
      have hfm : ((some y :: rest : List (Option ℚ)).filterMap id) = y :: rest.filterMap id := by
        simp
      cases lastY with
      | none =>
        have h := ih (some y) 0 (n + 1)
        have hred : waitGo none cnt (some y :: rest) n = waitGo (some y) 0 rest (n + 1) :=
          rfl
        refine ⟨⟨?_, ?_⟩, ?_, ?_⟩
        · rw [hred]
          exact le_trans (by omega) h.1.1
        · rw [hred]
          have := h.1.2
          simp only [List.length_cons]
          omega
        · intro ht
          rw [hred] at ht ⊢
          rw [h.2.1 ht]
          simp only [List.length_cons]
          omega
        · rw [hred, hfm]
          simp only [List.foldl_cons]
          rw [show scanStep (toScan none cnt) y = toScan (some y) 0 from rfl]
          exact h.2.2
      | some ly =>
        by_cases h1 : |y - ly| < 1
        · by_cases h5 : 5 ≤ cnt + 1
          · have hred : waitGo (some ly) cnt (some y :: rest) n = (.stable, n + 1) := by
              show (if |y - ly| < 1 then
                  if 5 ≤ cnt + 1 then ((.stable, n + 1) : WaitResult × ℕ)
                  else waitGo (some ly) (cnt + 1) rest (n + 1)
                else waitGo (some y) 0 rest (n + 1)) = (.stable, n + 1)
              rw [if_pos h1, if_pos h5]
            have hstep : scanStep (.tracking ly cnt) y = .done := by
              show (if |y - ly| < 1 then
                  if 5 ≤ cnt + 1 then ScanSt.done else .tracking ly (cnt + 1)
                else .tracking y 0) = .done
              rw [if_pos h1, if_pos h5]
            refine ⟨⟨?_, ?_⟩, ?_, ?_⟩
            · rw [hred]
              omega
            · rw [hred]
              simp only [List.length_cons]
              omega
            · intro ht
              rw [hred] at ht
              exact absurd ht (by simp)
            · rw [hred, hfm]
              simp only [List.foldl_cons]
              rw [show scanStep (toScan (some ly) cnt) y = scanStep (.tracking ly cnt) y
                from rfl, hstep, foldl_scanStep_done]
              simp
          · have h := ih (some ly) (cnt + 1) (n + 1)
            have hred : waitGo (some ly) cnt (some y :: rest) n =
                waitGo (some ly) (cnt + 1) rest (n + 1) := by
              show (if |y - ly| < 1 then
                  if 5 ≤ cnt + 1 then ((.stable, n + 1) : WaitResult × ℕ)
                  else waitGo (some ly) (cnt + 1) rest (n + 1)
                else waitGo (some y) 0 rest (n + 1)) = _
              rw [if_pos h1, if_neg h5]
            have hstep : scanStep (.tracking ly cnt) y = .tracking ly (cnt + 1) := by
              show (if |y - ly| < 1 then
                  if 5 ≤ cnt + 1 then ScanSt.done else .tracking ly (cnt + 1)
                else .tracking y 0) = _
              rw [if_pos h1, if_neg h5]
            refine ⟨⟨?_, ?_⟩, ?_, ?_⟩
            · rw [hred]
              exact le_trans (by omega) h.1.1
            · rw [hred]
              have := h.1.2
              simp only [List.length_cons]
              omega
            · intro ht
              rw [hred] at ht ⊢
              rw [h.2.1 ht]
              simp only [List.length_cons]
              omega
            · rw [hred, hfm]
              simp only [List.foldl_cons]
              rw [show scanStep (toScan (some ly) cnt) y = scanStep (.tracking ly cnt) y
                from rfl, hstep]
              exact h.2.2
        · have h := ih (some y) 0 (n + 1)
          have hred : waitGo (some ly) cnt (some y :: rest) n =
              waitGo (some y) 0 rest (n + 1) := by
            show (if |y - ly| < 1 then
                if 5 ≤ cnt + 1 then ((.stable, n + 1) : WaitResult × ℕ)
                else waitGo (some ly) (cnt + 1) rest (n + 1)
              else waitGo (some y) 0 rest (n + 1)) = _
            rw [if_neg h1]
          have hstep : scanStep (.tracking ly cnt) y = .tracking y 0 := by
            show (if |y - ly| < 1 then
                if 5 ≤ cnt + 1 then ScanSt.done else .tracking ly (cnt + 1)
              else .tracking y 0) = _
            rw [if_neg h1]
          refine ⟨⟨?_, ?_⟩, ?_, ?_⟩
          · rw [hred]
            exact le_trans (by omega) h.1.1
          · rw [hred]
            have := h.1.2
            simp only [List.length_cons]
            omega
          · intro ht
            rw [hred] at ht ⊢
            rw [h.2.1 ht]
            simp only [List.length_cons]
            omega
          · rw [hred, hfm]
            simp only [List.foldl_cons]
            rw [show scanStep (toScan (some ly) cnt) y = scanStep (.tracking ly cnt) y
              from rfl, hstep]
            exact h.2.2

/-- Minimality of the stable exit: the loop returns at the first poll at
which the scan of the present readings reaches `done`, and at no earlier
prefix. -/
theorem waitGo_minimal :
    ∀ (polls : List (Option ℚ)) (lastY : Option ℚ) (cnt n : ℕ),
      (waitGo lastY cnt polls n).1 = .stable →
      ((polls.take ((waitGo lastY cnt polls n).2 - n)).filterMap id).foldl scanStep
          (toScan lastY cnt) = .done ∧
      ∀ k, k < (waitGo lastY cnt polls n).2 - n →
        ((polls.take k).filterMap id).foldl scanStep (toScan lastY cnt) ≠ .done := by
  intro polls
  induction polls with
  | nil =>
    intro lastY cnt n hst
    exact absurd hst (by simp [waitGo])
  | cons p rest ih =>
    intro lastY cnt n hst
    cases p with
    | none =>
      have hred : waitGo lastY cnt (none :: rest) n = waitGo lastY cnt rest (n + 1) := rfl
      rw [hred] at hst ⊢
      have hb : n + 1 ≤ (waitGo lastY cnt rest (n + 1)).2 :=
        (waitGo_spec rest lastY cnt (n + 1)).1.1
      obtain ⟨hdone, hmin⟩ := ih lastY cnt (n + 1) hst
      have hm : (waitGo lastY cnt rest (n + 1)).2 - n =
          ((waitGo lastY cnt rest (n + 1)).2 - (n + 1)) + 1 := by omega
      constructor
      · rw [hm, List.take_succ_cons]
        simpa using hdone
      · intro k hk
        cases k with
        | zero =>
          simp only [List.take_zero, List.filterMap_nil, List.foldl_nil]
          exact toScan_ne_done lastY cnt
        | succ k' =>
          rw [List.take_succ_cons]
          have hk' : k' < (waitGo lastY cnt rest (n + 1)).2 - (n + 1) := by omega
          simpa using hmin k' hk'
    | some y =>
      cases lastY with
      | none =>
        have hred : waitGo none cnt (some y :: rest) n = waitGo (some y) 0 rest (n + 1) :=
          rfl
        rw [hred] at hst ⊢
        have hb : n + 1 ≤ (waitGo (some y) 0 rest (n + 1)).2 :=
          (waitGo_spec rest (some y) 0 (n + 1)).1.1
        obtain ⟨hdone, hmin⟩ := ih (some y) 0 (n + 1) hst
        have hm : (waitGo (some y) 0 rest (n + 1)).2 - n =
            ((waitGo (some y) 0 rest (n + 1)).2 - (n + 1)) + 1 := by omega
        constructor
        · rw [hm, List.take_succ_cons]
          simp only [List.filterMap_cons, id, List.foldl_cons]
          rw [show scanStep (toScan none cnt) y = toScan (some y) 0 from rfl]
          exact hdone
        · intro k hk
          cases k with
          | zero =>
            simp only [List.take_zero, List.filterMap_nil, List.foldl_nil]
            exact toScan_ne_done none cnt
          | succ k' =>
            rw [List.take_succ_cons]
            have hk' : k' < (waitGo (some y) 0 rest (n + 1)).2 - (n + 1) := by omega
            simp only [List.filterMap_cons, id, List.foldl_cons]
            rw [show scanStep (toScan none cnt) y = toScan (some y) 0 from rfl]
            exact hmin k' hk'
      | some ly =>
        by_cases h1 : |y - ly| < 1
        · by_cases h5 : 5 ≤ cnt + 1
          · have hred : waitGo (some ly) cnt (some y :: rest) n = (.stable, n + 1) := by
              show (if |y - ly| < 1 then
                  if 5 ≤ cnt + 1 then ((.stable, n + 1) : WaitResult × ℕ)
                  else waitGo (some ly) (cnt + 1) rest (n + 1)
                else waitGo (some y) 0 rest (n + 1)) = (.stable, n + 1)
              rw [if_pos h1, if_pos h5]
            have hstep : scanStep (.tracking ly cnt) y = .done := by
              show (if |y - ly| < 1 then
                  if 5 ≤ cnt + 1 then ScanSt.done else .tracking ly (cnt + 1)
                else .tracking y 0) = .done
              rw [if_pos h1, if_pos h5]
            rw [hred]
            have hm : n + 1 - n = 1 := by omega
            constructor
            · rw [hm, List.take_succ_cons, List.take_zero]
              simp only [List.filterMap_cons, id, List.filterMap_nil, List.foldl_cons,
                List.foldl_nil]
              exact hstep
            · intro k hk
              rw [hm] at hk
              interval_cases k
              simp only [List.take_zero, List.filterMap_nil, List.foldl_nil]
              exact toScan_ne_done (some ly) cnt
          · have hred : waitGo (some ly) cnt (some y :: rest) n =
                waitGo (some ly) (cnt + 1) rest (n + 1) := by
              show (if |y - ly| < 1 then
                  if 5 ≤ cnt + 1 then ((.stable, n + 1) : WaitResult × ℕ)
                  else waitGo (some ly) (cnt + 1) rest (n + 1)
                else waitGo (some y) 0 rest (n + 1)) = _
              rw [if_pos h1, if_neg h5]
            have hstep : scanStep (.tracking ly cnt) y = .tracking ly (cnt + 1) := by
              show (if |y - ly| < 1 then
                  if 5 ≤ cnt + 1 then ScanSt.done else .tracking ly (cnt + 1)
                else .tracking y 0) = _
              rw [if_pos h1, if_neg h5]
            rw [hred] at hst ⊢
            have hb : n + 1 ≤ (waitGo (some ly) (cnt + 1) rest (n + 1)).2 :=
              (waitGo_spec rest (some ly) (cnt + 1) (n + 1)).1.1
            obtain ⟨hdone, hmin⟩ := ih (some ly) (cnt + 1) (n + 1) hst
            have hm : (waitGo (some ly) (cnt + 1) rest (n + 1)).2 - n =
                ((waitGo (some ly) (cnt + 1) rest (n + 1)).2 - (n + 1)) + 1 := by omega
            constructor
            · rw [hm, List.take_succ_cons]
              simp only [List.filterMap_cons, id, List.foldl_cons]
              rw [show scanStep (toScan (some ly) cnt) y = scanStep (.tracking ly cnt) y
                from rfl, hstep]
              exact hdone
            · intro k hk
              cases k with
              | zero =>
                simp only [List.take_zero, List.filterMap_nil, List.foldl_nil]
                exact toScan_ne_done (some ly) cnt
              | succ k' =>
                rw [List.take_succ_cons]
                have hk' : k' < (waitGo (some ly) (cnt + 1) rest (n + 1)).2 - (n + 1) := by
                  omega
                simp only [List.filterMap_cons, id, List.foldl_cons]
                rw [show scanStep (toScan (some ly) cnt) y =
                  scanStep (.tracking ly cnt) y from rfl, hstep]
                exact hmin k' hk'
        · have hred : waitGo (some ly) cnt (some y :: rest) n =
              waitGo (some y) 0 rest (n + 1) := by
            show (if |y - ly| < 1 then
                if 5 ≤ cnt + 1 then ((.stable, n + 1) : WaitResult × ℕ)
                else waitGo (some ly) (cnt + 1) rest (n + 1)
              else waitGo (some y) 0 rest (n + 1)) = _
            rw [if_neg h1]
          have hstep : scanStep (.tracking ly cnt) y = .tracking y 0 := by
            show (if |y - ly| < 1 then
                if 5 ≤ cnt + 1 then ScanSt.done else .tracking ly (cnt + 1)
              else .tracking y 0) = _
            rw [if_neg h1]
          rw [hred] at hst ⊢
          have hb : n + 1 ≤ (waitGo (some y) 0 rest (n + 1)).2 :=
            (waitGo_spec rest (some y) 0 (n + 1)).1.1
          obtain ⟨hdone, hmin⟩ := ih (some y) 0 (n + 1) hst
          have hm : (waitGo (some y) 0 rest (n + 1)).2 - n =
              ((waitGo (some y) 0 rest (n + 1)).2 - (n + 1)) + 1 := by omega
          constructor
          · rw [hm, List.take_succ_cons]
            simp only [List.filterMap_cons, id, List.foldl_cons]
            rw [show scanStep (toScan (some ly) cnt) y = scanStep (.tracking ly cnt) y
              from rfl, hstep]
            exact hdone
          · intro k hk
            cases k with
            | zero =>
              simp only [List.take_zero, List.filterMap_nil, List.foldl_nil]
              exact toScan_ne_done (some ly) cnt
            | succ k' =>
              rw [List.take_succ_cons]
              have hk' : k' < (waitGo (some y) 0 rest (n + 1)).2 - (n + 1) := by omega
              simp only [List.filterMap_cons, id, List.foldl_cons]
              rw [show scanStep (toScan (some ly) cnt) y = scanStep (.tracking ly cnt) y
                from rfl, hstep]
              exact hmin k' hk'

/-- C9: the stability waiter consumes at most its poll budget (never
blocking beyond the timeout); with the element absent on every poll it
retries through the whole budget and then takes the timeout exit (a soft
failure — the source returns `void` either way and the caller proceeds);
and it takes the stable exit exactly when its present readings contain an
anchor followed by 5 consecutive readings strictly within 1px of it (the
`scanStep` scan), stopping at the very first poll where that happens. -/
theorem waitForStablePosition_spec :
    ∀ polls : List (Option ℚ),
      (waitForStablePosition polls).2 ≤ polls.length ∧
      ((∀ o ∈ polls, o = none) →
        waitForStablePosition polls = (.timedOut, polls.length)) ∧
      ((waitForStablePosition polls).1 = .stable ↔
        (polls.filterMap id).foldl scanStep .fresh = .done) ∧
      ((waitForStablePosition polls).1 = .stable →
        ((polls.take (waitForStablePosition polls).2).filterMap id).foldl scanStep
            .fresh = .done ∧
        ∀ k, k < (waitForStablePosition polls).2 →
          ((polls.take k).filterMap id).foldl scanStep .fresh ≠ .done) := by
  intro polls
  have h := waitGo_spec polls none 0 0
  have hmin := waitGo_minimal polls none 0 0
  refine ⟨by simpa using h.1.2, ?_, by simpa [toScan] using h.2.2, ?_⟩
  · intro hall
    have hfm : polls.filterMap id = [] :=
      List.filterMap_eq_nil_iff.mpr (fun o ho => by simp [hall o ho])
    have hns : (waitGo none 0 polls 0).1 ≠ WaitResult.stable := by
      intro hs
      have hdone := h.2.2.mp hs
      rw [hfm] at hdone
      simp only [List.foldl_nil] at hdone
      exact absurd hdone (by decide)
    have ht : (waitGo none 0 polls 0).1 = .timedOut := by
      rcases hr : (waitGo none 0 polls 0).1 with _ | _
      · exact absurd hr hns
      · rfl
    have hc := h.2.1 ht
    show waitGo none 0 polls 0 = (.timedOut, polls.length)
    rcases hpair : waitGo none 0 polls 0 with ⟨res, cns⟩
    rw [hpair] at ht hc
    rw [show res = WaitResult.timedOut from ht, show cns = polls.length from by
      simpa using hc]
  · intro hs
    have hm := hmin hs
    constructor
    · have := hm.1
      simpa [toScan] using this
    · intro k hk
      have := hm.2 k (by simpa using hk)
      simpa [toScan] using this

/-- Witness for C9: three absent polls exhaust the budget and time out;
seven constant readings declare stability (anchor plus five confirmations
within 1px). -/
theorem waitForStablePosition_spec_witness :
    waitForStablePosition [none, none, none] = (.timedOut, 3) ∧
    (waitForStablePosition
      [some 10, some 10, some 10, some 10, some 10, some 10, some 10]).1 = .stable := by
  constructor
  · exact (waitForStablePosition_spec [none, none, none]).2.1 (by simp)
  · refine (waitForStablePosition_spec _).2.2.1.mpr ?_
    norm_num [List.filterMap_cons, id, scanStep, List.foldl_cons]
